import Mathlib

/-!
# Verification of the Phobos flow manager (`flow.py`)

Shallow embedding of `flow.py`: the `FlowManager` orchestrator (collision
resolving namespace map, run loop with per-item fault isolation, filter
parser) together with the `NameSet` helper.

Modelling choices:
* Python dicts are insertion-ordered association lists (`Dict`), with
  `dictGet` / `dictSet` / `dictAppend` mirroring `d[k]`, `d[k] = v` and
  `d.setdefault(k, []).append(x)`.
* A miner is identified by its object identity (`mid`), carries
  `type(miner).__name__` as `typeName` and its `contname_iter()` output as
  `contnames`.  Its `get_data` method and a writer's `write` method are
  passed to `run` as environment functions returning an `Outcome`: normal
  result, an exception (carrying `type(e).__name__` and the message), or
  `KeyboardInterrupt`.
* Python sets of container names are `Finset String`; iteration over a set
  only ever happens through `sorted(...)`, modelled by an insertion sort
  with the code-point lexicographic order `strLt` (Python string `<`).
* `run`'s observable behaviour (progress prints, writer invocations, the
  missing-containers report) is an event trace; `FilterParseError` is the
  `Except.error` case carrying the message, and a propagating
  `KeyboardInterrupt` ends the trace with `RunEnd.interrupted`.
-/

/-- Decidable equality for `Except`, used to evaluate parse and run results
on concrete inputs. -/
instance instDecidableEqExcept {ε α : Type} [DecidableEq ε] [DecidableEq α] :
    DecidableEq (Except ε α) := fun x y =>
  match x, y with
  | Except.error a, Except.error b =>
    if h : a = b then isTrue (congrArg Except.error h)
    else isFalse (fun hc => h (Except.error.inj hc))
  | Except.ok a, Except.ok b =>
    if h : a = b then isTrue (congrArg Except.ok h)
    else isFalse (fun hc => h (Except.ok.inj hc))
  | Except.error _, Except.ok _ => isFalse (fun hc => Except.noConfusion hc)
  | Except.ok _, Except.error _ => isFalse (fun hc => Except.noConfusion hc)

/-! ## Python dictionaries as insertion-ordered association lists -/

abbrev Dict (α β : Type) := List (α × β)

/-- `d[k]` as an option (first binding wins; construction keeps keys unique). -/
def dictGet {α β : Type} [DecidableEq α] : Dict α β → α → Option β
  | [], _ => none
  | (k, v) :: rest, key => if k = key then some v else dictGet rest key

/-- `d[key] = v`: update in place when the key is present, append otherwise. -/
def dictSet {α β : Type} [DecidableEq α] : Dict α β → α → β → Dict α β
  | [], key, v => [(key, v)]
  | (k, w) :: rest, key, v =>
    if k = key then (key, v) :: rest else (k, w) :: dictSet rest key v

/-- `d.setdefault(key, []).append(x)` on a dict of lists (flow.py lines 89-90). -/
def dictAppend {α β : Type} [DecidableEq α] (d : Dict α (List β)) (key : α) (x : β) :
    Dict α (List β) :=
  match dictGet d key with
  | some xs => dictSet d key (xs ++ [x])
  | none => d ++ [(key, [x])]

/-! ## Collaborators -/

/-- A miner object: `mid` is the Python object identity, `typeName` is
`type(miner).__name__`, `contnames` is the sequence yielded by
`contname_iter()`. -/
structure Miner where
  mid : Nat
  typeName : String
  contnames : List String
deriving DecidableEq

/-- A writer object: `wid` is the Python object identity, `typeName` is
`type(writer).__name__`. -/
structure Writer' where
  wid : Nat
  typeName : String
deriving DecidableEq

/-- Data returned by a miner's `get_data`. -/
abbrev Data := String

/-- Result of calling a collaborator method: normal return, an exception
(`type(e).__name__` and `str(e)`), or `KeyboardInterrupt`. -/
inductive Outcome (α : Type) where
  | ok : α → Outcome α
  | exn : String → String → Outcome α
  | keyboardInterrupt : Outcome α
deriving DecidableEq

/-! ## The namespace resolver (`FlowManager._name_source_map`, lines 76-104) -/

/-- Intermediate map `{container name: [miners]}` (lines 86-90): one entry per
occurrence, miners in registration order, names in enumeration order. -/
def nameMinerMap (miners : List Miner) : Dict String (List Miner) :=
  miners.foldl (fun acc miner =>
    miner.contnames.foldl (fun acc source_name => dictAppend acc source_name miner) acc) []

/-- `self.__name_source_map.setdefault(miner, {})[modified_name] = source_name`
(lines 98-99 and 102-103). -/
def setInner (d : Dict Miner (Dict String String)) (miner : Miner)
    (modified_name source_name : String) : Dict Miner (Dict String String) :=
  match dictGet d miner with
  | some inner => dictSet d miner (dictSet inner modified_name source_name)
  | none => d ++ [(miner, [(modified_name, source_name)])]

/-- The resolved namespace `{miner: {modified name: source name}}`
(lines 91-103): names with one producing occurrence map to themselves,
colliding names get the miner type name appended. -/
def nameSourceMap (miners : List Miner) : Dict Miner (Dict String String) :=
  (nameMinerMap miners).foldl (fun acc entry =>
    let source_name := entry.1
    let ms := entry.2
    if ms.length > 1 then
      ms.foldl (fun acc miner =>
        setInner acc miner (source_name ++ "_" ++ miner.typeName) source_name) acc
    else
      -- `miners[0]` in the source; the list is never empty by construction,
      -- the `[]` case is unreachable.
      match ms with
      | miner :: _ => setInner acc miner source_name source_name
      | [] => acc) []

/-- One `(miner, modified name, source name)` triple per inner-dict assignment
performed by `nameSourceMap`, in execution order.  This replays lines 93-103
as a flat stream of writes. -/
def registrations (miners : List Miner) : List (Miner × String × String) :=
  (nameMinerMap miners).foldr (fun entry acc =>
    (if entry.2.length > 1 then
      entry.2.map (fun miner => (miner, entry.1 ++ "_" ++ miner.typeName, entry.1))
    else
      entry.2.map (fun miner => (miner, entry.1, entry.1))) ++ acc) []

/-- Replay a stream of inner-dict assignments. -/
def applyRegs (d : Dict Miner (Dict String String)) :
    List (Miner × String × String) → Dict Miner (Dict String String)
  | [] => d
  | (miner, modified_name, source_name) :: ws =>
    applyRegs (setInner d miner modified_name source_name) ws

/-- The public name lookup `self._name_source_map[miner][modified_name]`. -/
def bucketGet (d : Dict Miner (Dict String String)) (miner : Miner)
    (modified_name : String) : Option String :=
  match dictGet d miner with
  | some inner => dictGet inner modified_name
  | none => none

/-- The value written by the last assignment in the stream whose key is
`(miner, modified_name)`, if any. -/
def lastReg : List (Miner × String × String) → Miner → String → Option String
  | [], _, _ => none
  | (m', pub', src') :: ws, miner, modified_name =>
    match lastReg ws miner modified_name with
    | some v => some v
    | none => if m' = miner ∧ pub' = modified_name then some src' else none

/-- Producers of a native name, with multiplicity: for each miner in
registration order, one occurrence per time `contname_iter` yields the name.
This is the claim-side description of the values of `nameMinerMap`. -/
def producersOf (miners : List Miner) (source_name : String) : List Miner :=
  miners.foldr (fun miner acc =>
    List.replicate (miner.contnames.count source_name) miner ++ acc) []

/-- No two generated registrations with the same miner and the same public
name carry different native names: the generated entries never silently
overwrite one another. -/
@[reducible] def RegsConsistent (miners : List Miner) : Prop :=
  ∀ w1 ∈ registrations miners, ∀ w2 ∈ registrations miners,
    w1.1 = w2.1 → w1.2.1 = w2.2.1 → w1.2.2 = w2.2.2

/-- No generated registration uses a colliding native name itself as a public
name: renaming never reintroduces a multi-produced native name. -/
@[reducible] def NoBareCollision (miners : List Miner) : Prop :=
  ∀ entry ∈ nameMinerMap miners, entry.2.length > 1 →
    ∀ w ∈ registrations miners, w.2.1 ≠ entry.1

/-- Every generated public name determines its miner: two registrations that
agree on the public name agree on the miner. -/
@[reducible] def RegsMinerDetermined (miners : List Miner) : Prop :=
  ∀ w1 ∈ registrations miners, ∀ w2 ∈ registrations miners,
    w1.2.1 = w2.2.1 → w1.1 = w2.1

/-! ## NameSet (lines 141-151) -/

/-- Whitespace stripped by Python's `str.strip()` (ASCII fragment). -/
def isSpaceChar (c : Char) : Bool :=
  c == ' ' || c == '\t' || c == '\n' || c == '\r' || c == '\x0b' || c == '\x0c'

/-- Strip `isSpaceChar` characters from both ends of a character list. -/
def stripChars (cs : List Char) : List Char :=
  ((cs.dropWhile isSpaceChar).reverse.dropWhile isSpaceChar).reverse

/-- Python `name.strip()`. -/
def pyStrip (s : String) : String := String.mk (stripChars s.data)

namespace NameSet

/-- `NameSet.add` (lines 148-151): strip the name, insert it only when the
stripped name is non-empty. -/
def add (s : Finset String) (name : String) : Finset String :=
  let name := pyStrip name
  if name ≠ "" then insert name s else s

end NameSet

/-! ## The filter parser (`FlowManager._parse_filter`, lines 106-138) -/

/-- Python slice `s[a:b]` on the character list. -/
def pySlice (cs : List Char) (a b : Nat) : List Char := (cs.drop a).take (b - a)

/-- Decimal digit character. -/
def digitChar : Nat → Char
  | 0 => '0' | 1 => '1' | 2 => '2' | 3 => '3' | 4 => '4'
  | 5 => '5' | 6 => '6' | 7 => '7' | 8 => '8' | 9 => '9' | _ => '?'

/-- Decimal digits of a natural number (fuel-driven so that it reduces). -/
def natDigits : Nat → Nat → List Char
  | 0, _ => []
  | fuel + 1, n =>
    if n < 10 then [digitChar n] else natDigits fuel (n / 10) ++ [digitChar (n % 10)]

/-- Decimal representation, as produced by `'{}'.format(pos)`. -/
def natRepr (n : Nat) : String := String.mk (natDigits (n + 1) n)

/-- The message `'unexpected character "{}" at position {}'` (line 131). -/
def unexpectedMsg (symbol : Char) (pos : Nat) : String :=
  "unexpected character \"" ++ String.mk [symbol] ++ "\" at position " ++ natRepr pos

/-- The scan loop of `_parse_filter` (lines 117-137).  `full` is the whole
filter string, `rest` the characters not yet scanned, `i` the position of the
head of `rest`, `pos_current` the cursor, `inarg` the inside-parenthesis flag
and `acc` the `NameSet` built so far.  `re.finditer('[(),]', ...)` visits
exactly the `(`, `)`, `,` characters in order; all other characters are
skipped. -/
def parseFilterAux (full : List Char) :
    List Char → Nat → Nat → Bool → Finset String → Except String (Finset String)
  | [], _i, pos_current, inarg, acc =>
    if inarg then Except.error "parenthesis is not closed"
    else Except.ok (NameSet.add acc (String.mk (full.drop pos_current)))
  | c :: rest, i, pos_current, inarg, acc =>
    if c = ',' then
      if inarg then parseFilterAux full rest (i + 1) pos_current inarg acc
      else
        parseFilterAux full rest (i + 1) (i + 1) inarg
          (NameSet.add acc (String.mk (pySlice full pos_current i)))
    else if c = '(' then
      if inarg then Except.error (unexpectedMsg c i)
      else parseFilterAux full rest (i + 1) pos_current true acc
    else if c = ')' then
      if inarg then parseFilterAux full rest (i + 1) pos_current false acc
      else Except.error (unexpectedMsg c i)
    else parseFilterAux full rest (i + 1) pos_current inarg acc

/-- `FlowManager._parse_filter`: `FilterParseError` is the error case,
carrying the message. -/
def parseFilter (name_filter : String) : Except String (Finset String) :=
  parseFilterAux name_filter.data name_filter.data 0 0 false ∅

/-- Claim side: the first illegal parenthesis character of the scan and its
0-based position — a `(` while already inside a group or a `)` while outside. -/
def firstBadParen : List Char → Nat → Bool → Option (Char × Nat)
  | [], _, _ => none
  | c :: rest, i, inarg =>
    if c = '(' then (if inarg then some (c, i) else firstBadParen rest (i + 1) true)
    else if c = ')' then (if inarg then firstBadParen rest (i + 1) false else some (c, i))
    else firstBadParen rest (i + 1) inarg

/-- Claim side: the inside-parenthesis state after scanning all characters. -/
def parenState : List Char → Bool → Bool
  | [], inarg => inarg
  | c :: rest, inarg =>
    if c = '(' then parenState rest true
    else if c = ')' then parenState rest false
    else parenState rest inarg

/-- Claim side: split a character list into entries at exactly the commas that
lie outside a parenthesis group; all other characters (commas inside a group
included) stay part of the surrounding entry.  `cur` is the entry being
accumulated. -/
def splitEntries : List Char → Bool → List Char → List String
  | [], _inarg, cur => [String.mk cur]
  | c :: rest, inarg, cur =>
    if c = ',' ∧ inarg = false then String.mk cur :: splitEntries rest inarg []
    else if c = '(' then splitEntries rest true (cur ++ [c])
    else if c = ')' then splitEntries rest false (cur ++ [c])
    else splitEntries rest inarg (cur ++ [c])

/-- A string containing none of the three characters the scan reacts to. -/
@[reducible] def NoSpecialChar (s : String) : Prop :=
  ∀ c ∈ s.data, c ≠ ',' ∧ c ≠ '(' ∧ c ≠ ')'

/-! ## Sorting (Python `sorted`) -/

/-- Lexicographic strict order on code points. -/
def ltChars : List Char → List Char → Bool
  | [], [] => false
  | [], _ :: _ => true
  | _ :: _, [] => false
  | a :: as, b :: bs =>
    if a.toNat < b.toNat then true
    else if b.toNat < a.toNat then false
    else ltChars as bs

/-- Python string `<`: lexicographic comparison of code points. -/
def strLt (a b : String) : Bool := ltChars a.data b.data

/-- Insert `x` into `l` before the first element not strictly below it:
the insertion step of a stable insertion sort. -/
def insOrd {α : Type} (lt : α → α → Bool) (x : α) : List α → List α
  | [] => [x]
  | y :: ys => if lt y x then y :: insOrd lt x ys else x :: y :: ys

/-- Stable insertion sort with respect to a strict order, the specification
of Python's stable `sorted`. -/
def isort {α : Type} (lt : α → α → Bool) : List α → List α
  | [] => []
  | x :: xs => insOrd lt x (isort lt xs)

/-- `ltChars` is asymmetric.  (Proof kept with the definitions because
`sortedNames` depends on it through `insOrd_strLt_lcomm`.) -/
def ltChars_asymm : ∀ x y : List Char, ltChars x y = true → ltChars y x = false := by
  intro x
  induction x with
  | nil => intro y h; cases y <;> simp_all [ltChars]
  | cons a as ih =>
    intro y h
    cases y with
    | nil => simp [ltChars] at h
    | cons b bs =>
      by_cases h1 : a.toNat < b.toNat
      · have h2 : ¬ b.toNat < a.toNat := by omega
        simp [ltChars, h1, h2]
      · by_cases h3 : b.toNat < a.toNat
        · simp [ltChars, h1, h3] at h
        · simp only [ltChars, if_neg h1, if_neg h3] at h
          simp only [ltChars, if_neg h3, if_neg h1]
          exact ih bs h

/-- Two lists neither of which is `ltChars`-below the other are equal. -/
def ltChars_conn : ∀ x y : List Char, ltChars x y = false → ltChars y x = false → x = y := by
  intro x
  induction x with
  | nil =>
    intro y h1 h2
    cases y with
    | nil => rfl
    | cons b bs => simp [ltChars] at h1
  | cons a as ih =>
    intro y h1 h2
    cases y with
    | nil => simp [ltChars] at h2
    | cons b bs =>
      by_cases hab : a.toNat < b.toNat
      · simp [ltChars, hab] at h1
      · by_cases hba : b.toNat < a.toNat
        · simp [ltChars, hba] at h2
        · have hchar : a = b := by
            have hn : a.toNat = b.toNat := by omega
            rw [← Char.ofNat_toNat a, ← Char.ofNat_toNat b, hn]
          simp only [ltChars, if_neg hab, if_neg hba] at h1
          simp only [ltChars, if_neg hba, if_neg hab] at h2
          rw [hchar, ih bs h1 h2]

/-- `ltChars` is transitive. -/
def ltChars_trans :
    ∀ x y z : List Char, ltChars x y = true → ltChars y z = true → ltChars x z = true := by
  intro x
  induction x with
  | nil =>
    intro y z h1 h2
    cases y with
    | nil => simp [ltChars] at h1
    | cons b bs =>
      cases z with
      | nil => simp [ltChars] at h2
      | cons c cs => simp [ltChars]
  | cons a as ih =>
    intro y z h1 h2
    cases y with
    | nil => simp [ltChars] at h1
    | cons b bs =>
      cases z with
      | nil => simp [ltChars] at h2
      | cons c cs =>
        by_cases hab : a.toNat < b.toNat
        · by_cases hbc : b.toNat < c.toNat
          · have hac : a.toNat < c.toNat := by omega
            simp [ltChars, hac]
          · by_cases hcb : c.toNat < b.toNat
            · simp [ltChars, hbc, hcb] at h2
            · have hac : a.toNat < c.toNat := by omega
              simp [ltChars, hac]
        · by_cases hba : b.toNat < a.toNat
          · simp [ltChars, hab, hba] at h1
          · simp only [ltChars, if_neg hab, if_neg hba] at h1
            by_cases hbc : b.toNat < c.toNat
            · have hac : a.toNat < c.toNat := by omega
              simp [ltChars, hac]
            · by_cases hcb : c.toNat < b.toNat
              · simp [ltChars, hbc, hcb] at h2
              · simp only [ltChars, if_neg hbc, if_neg hcb] at h2
                have hac : ¬ a.toNat < c.toNat := by omega
                have hca : ¬ c.toNat < a.toNat := by omega
                simp only [ltChars, if_neg hac, if_neg hca]
                exact ih bs cs h1 h2

/-- `strLt` is asymmetric. -/
def strLt_asymm : ∀ x y : String, strLt x y = true → strLt y x = false :=
  fun x y h => ltChars_asymm x.data y.data h

/-- Two strings neither of which is `strLt`-below the other are equal. -/
def strLt_conn : ∀ x y : String, strLt x y = false → strLt y x = false → x = y :=
  fun x y h1 h2 => String.ext (ltChars_conn x.data y.data h1 h2)

/-- `strLt` is transitive. -/
def strLt_trans : ∀ x y z : String, strLt x y = true → strLt y z = true → strLt x z = true :=
  fun x y z h1 h2 => ltChars_trans x.data y.data z.data h1 h2

/-- Sorted insertion with a linear strict order is left-commutative. -/
def insOrd_lcomm_of {α : Type} (lt : α → α → Bool)
    (hasym : ∀ x y, lt x y = true → lt y x = false)
    (hconn : ∀ x y, lt x y = false → lt y x = false → x = y)
    (htrans : ∀ x y z, lt x y = true → lt y z = true → lt x z = true) :
    LeftCommutative (insOrd lt) := by
  constructor
  intro x y l
  induction l with
  | nil =>
    by_cases hyx : lt y x = true
    · have hxy : lt x y = false := hasym y x hyx
      simp [insOrd, hyx, hxy]
    · by_cases hxy : lt x y = true
      · have hyx' : lt y x = false := hasym x y hxy
        simp [insOrd, hxy, hyx']
      · have he : x = y :=
          hconn x y (Bool.not_eq_true _ ▸ hxy) (Bool.not_eq_true _ ▸ hyx)
        rw [he]
  | cons c cs ih =>
    by_cases hcy : lt c y = true
    · by_cases hcx : lt c x = true
      · simp only [insOrd, hcy, hcx, if_true, ih]
      · by_cases hxy : lt x y = true
        · simp [insOrd, hcy, hcx, hxy]
        · exfalso
          by_cases hyx : lt y x = true
          · exact absurd (htrans c y x hcy hyx) (by simp [hcx])
          · have he : x = y :=
              hconn x y (Bool.not_eq_true _ ▸ hxy) (Bool.not_eq_true _ ▸ hyx)
            rw [he] at hcx
            exact hcx hcy
    · by_cases hyx : lt y x = true
      · by_cases hcx : lt c x = true
        · simp [insOrd, hcy, hyx, hcx]
        · have hxy : lt x y = false := hasym y x hyx
          simp [insOrd, hcy, hyx, hcx, hxy]
      · by_cases hcx : lt c x = true
        · exfalso
          by_cases hyc : lt y c = true
          · exact absurd (htrans y c x hyc hcx) (by simp [hyx])
          · have he : c = y :=
              hconn c y (Bool.not_eq_true _ ▸ hcy) (Bool.not_eq_true _ ▸ hyc)
            rw [he] at hcx
            exact hyx hcx
        · by_cases hxy : lt x y = true
          · simp [insOrd, hcy, hyx, hcx, hxy]
          · have he : x = y :=
              hconn x y (Bool.not_eq_true _ ▸ hxy) (Bool.not_eq_true _ ▸ hyx)
            rw [he]

/-- `insOrd` with the string order is left-commutative, so it can fold over a
multiset. -/
def insOrd_strLt_lcomm : LeftCommutative (insOrd strLt) :=
  insOrd_lcomm_of strLt strLt_asymm strLt_conn strLt_trans

/-- `sorted(s)` for a set of names: fold the sorted-insertion step over the
underlying multiset. -/
def sortedNames (s : Finset String) : List String :=
  @Multiset.foldr String (List String) (insOrd strLt) insOrd_strLt_lcomm [] s.val

/-- `sorted(keys, key=self._miners.index)` (line 39): stable sort by position
in the registration list.  Every key occurs in `miners`, so Python's
`list.index` never raises here. -/
def sortByRegistration (miners : List Miner) (keys : List Miner) : List Miner :=
  isort (fun a b => decide (miners.indexOf a < miners.indexOf b)) keys

/-! ## The run loop (`FlowManager.run`, lines 34-74) -/

/-- Observable behaviour of `run`: progress and diagnostic prints, and the
writer invocations. -/
inductive Event where
  | header : String → Event
  | processing : String → Event
  | fetchFail : String → String → Event
  | writeCall : String → String → Data → Event
  | writeFail : String → String → String → Event
  | missingHeader : Event
  | missingName : String → Event
deriving DecidableEq

/-- How a run ends: normally, or by a propagating `KeyboardInterrupt`. -/
inductive RunEnd where
  | completed : RunEnd
  | interrupted : RunEnd
deriving DecidableEq

/-- The writers loop (lines 61-67): every writer receives the pair, a write
exception is reported and the loop continues, `KeyboardInterrupt` aborts with
the events so far. -/
def writeLoop (write : Writer' → String → Data → Outcome Unit)
    (modified_name : String) (container_data : Data) :
    List Writer' → List Event → Except (List Event) (List Event)
  | [], evs => Except.ok evs
  | w :: ws, evs =>
    match write w modified_name container_data with
    | Outcome.ok _ =>
      writeLoop write modified_name container_data ws
        (evs ++ [Event.writeCall w.typeName modified_name container_data])
    | Outcome.exn ename emsg =>
      writeLoop write modified_name container_data ws
        (evs ++ [Event.writeCall w.typeName modified_name container_data,
                 Event.writeFail w.typeName ename emsg])
    | Outcome.keyboardInterrupt =>
      Except.error (evs ++ [Event.writeCall w.typeName modified_name container_data])

/-- The names loop (lines 49-67): record the name as processed, fetch by the
source name (`dictGet` cannot miss, the default is never used), report a fetch
exception and continue, abort on `KeyboardInterrupt`, otherwise hand the data
to every writer. -/
def nameLoop (get_data : Miner → String → Outcome Data)
    (write : Writer' → String → Data → Outcome Unit) (writers : List Writer')
    (miner : Miner) (miner_names_map : Dict String String) :
    List String → List Event → Finset String →
      Except (List Event) (List Event × Finset String)
  | [], evs, processed_set => Except.ok (evs, processed_set)
  | modified_name :: ns, evs, processed_set =>
    let evs := evs ++ [Event.processing modified_name]
    let processed_set := insert modified_name processed_set
    let source_name := (dictGet miner_names_map modified_name).getD ""
    match get_data miner source_name with
    | Outcome.keyboardInterrupt => Except.error evs
    | Outcome.exn ename emsg =>
      nameLoop get_data write writers miner miner_names_map ns
        (evs ++ [Event.fetchFail ename emsg]) processed_set
    | Outcome.ok container_data =>
      match writeLoop write modified_name container_data writers evs with
      | Except.error evs' => Except.error evs'
      | Except.ok evs' =>
        nameLoop get_data write writers miner miner_names_map ns evs' processed_set

/-- The miners loop (lines 39-67): candidate names from the namespace,
intersected with a non-empty filter, skipping the miner when the result is
empty, names processed in sorted order. -/
def minerLoop (get_data : Miner → String → Outcome Data)
    (write : Writer' → String → Data → Outcome Unit) (writers : List Writer')
    (ns_map : Dict Miner (Dict String String)) (filter_set : Finset String) :
    List Miner → List Event → Finset String →
      Except (List Event) (List Event × Finset String)
  | [], evs, processed_set => Except.ok (evs, processed_set)
  | miner :: ms, evs, processed_set =>
    let miner_names_map := (dictGet ns_map miner).getD []
    let miner_containers := (miner_names_map.map Prod.fst).toFinset
    let miner_containers :=
      if filter_set ≠ ∅ then miner_containers ∩ filter_set else miner_containers
    if miner_containers = ∅ then
      minerLoop get_data write writers ns_map filter_set ms evs processed_set
    else
      match nameLoop get_data write writers miner miner_names_map
          (sortedNames miner_containers) (evs ++ [Event.header miner.typeName])
          processed_set with
      | Except.error evs' => Except.error evs'
      | Except.ok (evs', processed_set') =>
        minerLoop get_data write writers ns_map filter_set ms evs' processed_set'

/-- The requested-but-unavailable report (lines 68-74). -/
def missingReport (filter_set processed_set : Finset String) : List Event :=
  if filter_set ≠ ∅ then
    let missing_set := filter_set \ processed_set
    if missing_set ≠ ∅ then
      Event.missingHeader :: (sortedNames missing_set).map Event.missingName
    else []
  else []

/-- `FlowManager.run`: parse the filter (a `FilterParseError` propagates),
iterate the namespace keys in registration order, and finish with the
missing-containers report.  A propagating `KeyboardInterrupt` yields the
events so far with `RunEnd.interrupted`. -/
def run (miners : List Miner) (writers : List Writer')
    (get_data : Miner → String → Outcome Data)
    (write : Writer' → String → Data → Outcome Unit) (filter_string : String) :
    Except String (List Event × RunEnd) :=
  match parseFilter filter_string with
  | Except.error e => Except.error e
  | Except.ok filter_set =>
    let ns_map := nameSourceMap miners
    let order := sortByRegistration miners (ns_map.map Prod.fst)
    match minerLoop get_data write writers ns_map filter_set order [] ∅ with
    | Except.error evs => Except.ok (evs, RunEnd.interrupted)
    | Except.ok (evs, processed_set) =>
      Except.ok (evs ++ missingReport filter_set processed_set, RunEnd.completed)

/-! ## The memoized property (`_name_source_map`, lines 32 and 76-104) -/

/-- `FlowManager.__init__`: the miner list, the writer list and the
`__name_source_map` cache, initially `None`. -/
structure FlowManager where
  miners : List Miner
  writers : List Writer'
  cache : Option (Dict Miner (Dict String String))

/-- One access to the `_name_source_map` property: return the cached map, or
compute it from the miner list and store it. -/
def FlowManager.nameSourceMapAccess (fm : FlowManager) :
    Dict Miner (Dict String String) × FlowManager :=
  match fm.cache with
  | some m => (m, fm)
  | none =>
    let m := nameSourceMap fm.miners
    (m, { fm with cache := some m })

/-! ## Claim-side description of the run trace -/

/-- The candidate set of one miner (lines 41-44): its public names from the
namespace, intersected with the filter set when that set is non-empty. -/
def selection (ns_map : Dict Miner (Dict String String)) (filter_set : Finset String)
    (miner : Miner) : Finset String :=
  let base := (((dictGet ns_map miner).getD []).map Prod.fst).toFinset
  if filter_set ≠ ∅ then base ∩ filter_set else base

/-- Events of the writers loop for one successfully fetched container. -/
def writerEvents (write : Writer' → String → Data → Outcome Unit)
    (writers : List Writer') (modified_name : String) (container_data : Data) :
    List Event :=
  writers.foldr (fun w acc =>
    (match write w modified_name container_data with
     | Outcome.ok _ => [Event.writeCall w.typeName modified_name container_data]
     | Outcome.exn ename emsg =>
       [Event.writeCall w.typeName modified_name container_data,
        Event.writeFail w.typeName ename emsg]
     | Outcome.keyboardInterrupt =>
       [Event.writeCall w.typeName modified_name container_data]) ++ acc) []

/-- Events for one selected public name of one miner. -/
def nameEvents (get_data : Miner → String → Outcome Data)
    (write : Writer' → String → Data → Outcome Unit) (writers : List Writer')
    (miner : Miner) (miner_names_map : Dict String String)
    (modified_name : String) : List Event :=
  Event.processing modified_name ::
    match get_data miner ((dictGet miner_names_map modified_name).getD "") with
    | Outcome.ok container_data => writerEvents write writers modified_name container_data
    | Outcome.exn ename emsg => [Event.fetchFail ename emsg]
    | Outcome.keyboardInterrupt => []

/-- Events of one visited miner: its header, then its selected public names in
sorted order. -/
def minerEvents (get_data : Miner → String → Outcome Data)
    (write : Writer' → String → Data → Outcome Unit) (writers : List Writer')
    (ns_map : Dict Miner (Dict String String)) (filter_set : Finset String)
    (miner : Miner) : List Event :=
  Event.header miner.typeName ::
    (sortedNames (selection ns_map filter_set miner)).foldr (fun n acc =>
      nameEvents get_data write writers miner ((dictGet ns_map miner).getD []) n ++ acc) []

/-- The claim-side trace of a completed run (minus the final report): miners
in registration order, miners with an empty candidate set skipped. -/
def canonicalTrace (miners : List Miner) (writers : List Writer')
    (get_data : Miner → String → Outcome Data)
    (write : Writer' → String → Data → Outcome Unit) (filter_set : Finset String) :
    List Event :=
  (miners.filter (fun m =>
      decide (selection (nameSourceMap miners) filter_set m ≠ ∅))).foldr
    (fun m acc =>
      minerEvents get_data write writers (nameSourceMap miners) filter_set m ++ acc) []

/-- The processed set after a completed run: the union of every miner's
candidate set — independent of any fetch or write outcome. -/
def processedSpec (miners : List Miner) (filter_set : Finset String) : Finset String :=
  miners.foldr (fun m acc => selection (nameSourceMap miners) filter_set m ∪ acc) ∅

/-- The names reported as requested-but-unavailable in a trace. -/
def reportedMissing (trace : List Event) : List String :=
  trace.filterMap (fun e =>
    match e with
    | Event.missingName n => some n
    | _ => none)

/-! # Theorems -/

/-! ## Basic facts about the parser scan -/

theorem firstBadParen_cons (x : Char) (xs : List Char) (i : Nat) (inarg : Bool) :
    firstBadParen (x :: xs) i inarg =
      if x = '(' then (if inarg then some (x, i) else firstBadParen xs (i + 1) true)
      else if x = ')' then (if inarg then firstBadParen xs (i + 1) false else some (x, i))
      else firstBadParen xs (i + 1) inarg := rfl

theorem parenState_cons (x : Char) (xs : List Char) (inarg : Bool) :
    parenState (x :: xs) inarg =
      if x = '(' then parenState xs true
      else if x = ')' then parenState xs false
      else parenState xs inarg := rfl

theorem parseFilterAux_cons (full : List Char) (x : Char) (xs : List Char)
    (i pos_current : Nat) (inarg : Bool) (acc : Finset String) :
    parseFilterAux full (x :: xs) i pos_current inarg acc =
      if x = ',' then
        if inarg then parseFilterAux full xs (i + 1) pos_current inarg acc
        else
          parseFilterAux full xs (i + 1) (i + 1) inarg
            (NameSet.add acc (String.mk (pySlice full pos_current i)))
      else if x = '(' then
        if inarg then Except.error (unexpectedMsg x i)
        else parseFilterAux full xs (i + 1) pos_current true acc
      else if x = ')' then
        if inarg then parseFilterAux full xs (i + 1) pos_current false acc
        else Except.error (unexpectedMsg x i)
      else parseFilterAux full xs (i + 1) pos_current inarg acc := rfl

theorem splitEntries_cons (x : Char) (xs : List Char) (inarg : Bool) (cur : List Char) :
    splitEntries (x :: xs) inarg cur =
      if x = ',' ∧ inarg = false then String.mk cur :: splitEntries xs inarg []
      else if x = '(' then splitEntries xs true (cur ++ [x])
      else if x = ')' then splitEntries xs false (cur ++ [x])
      else splitEntries xs inarg (cur ++ [x]) := rfl

theorem drop_cons_next {full xs : List Char} {x : Char} {i : Nat}
    (h : full.drop i = x :: xs) : full.drop (i + 1) = xs := by
  have : full.drop (i + 1) = (full.drop i).drop 1 := by
    rw [List.drop_drop, Nat.add_comm]
  rw [this, h]
  rfl

theorem pySlice_snoc {full xs : List Char} {x : Char} {i pos : Nat}
    (h : full.drop i = x :: xs) (hpi : pos ≤ i) :
    pySlice full pos (i + 1) = pySlice full pos i ++ [x] := by
  have hx : full[i]? = some x := by
    have h0 : (full.drop i)[0]? = some x := by rw [h]; simp
    rw [List.getElem?_drop, Nat.add_zero] at h0
    exact h0
  have hsub : i + 1 - pos = (i - pos) + 1 := by omega
  unfold pySlice
  rw [hsub, List.take_succ, List.getElem?_drop]
  have : pos + (i - pos) = i := by omega
  rw [this, hx]
  rfl

theorem pySlice_to_end {full : List Char} {i pos : Nat}
    (h : full.drop i = []) (hpi : pos ≤ i) :
    pySlice full pos i = full.drop pos := by
  have hlen : full.length ≤ i := by
    have := congrArg List.length h
    simp [List.length_drop] at this
    omega
  unfold pySlice
  apply List.take_of_length_le
  simp [List.length_drop]
  omega

theorem parseAux_error_of_firstBad (rest : List Char) :
    ∀ (full : List Char) (i pos : Nat) (inarg : Bool) (acc : Finset String)
      (c : Char) (j : Nat),
      firstBadParen rest i inarg = some (c, j) →
      parseFilterAux full rest i pos inarg acc = Except.error (unexpectedMsg c j) := by
  induction rest with
  | nil =>
    intro full i pos inarg acc c j h
    simp [firstBadParen] at h
  | cons x xs ih =>
    intro full i pos inarg acc c j h
    by_cases hx1 : x = ','
    · subst hx1
      simp only [firstBadParen] at h
      cases inarg with
      | false => simpa [parseFilterAux] using ih full (i + 1) (i + 1) false _ c j h
      | true => simpa [parseFilterAux] using ih full (i + 1) pos true acc c j h
    · by_cases hx2 : x = '('
      · subst hx2
        cases inarg with
        | true =>
          simp only [firstBadParen, if_pos rfl, if_true] at h
          obtain ⟨rfl, rfl⟩ := Prod.mk.injEq .. ▸ Option.some.inj h
          simp [parseFilterAux]
        | false =>
          simp only [firstBadParen] at h
          norm_num at h
          simpa [parseFilterAux] using ih full (i + 1) pos true acc c j h
      · by_cases hx3 : x = ')'
        · subst hx3
          cases inarg with
          | false =>
            simp only [firstBadParen] at h
            norm_num at h
            obtain ⟨rfl, rfl⟩ := h
            simp [parseFilterAux]
          | true =>
            simp only [firstBadParen] at h
            norm_num at h
            simpa [parseFilterAux] using ih full (i + 1) pos false acc c j h
        · simp only [firstBadParen, if_neg hx2, if_neg hx3] at h
          simpa [parseFilterAux, hx1, hx2, hx3] using ih full (i + 1) pos inarg acc c j h

theorem parseAux_error_of_unclosed (rest : List Char) :
    ∀ (full : List Char) (i pos : Nat) (inarg : Bool) (acc : Finset String),
      firstBadParen rest i inarg = none → parenState rest inarg = true →
      parseFilterAux full rest i pos inarg acc =
        Except.error "parenthesis is not closed" := by
  induction rest with
  | nil =>
    intro full i pos inarg acc _ hst
    simp only [parenState] at hst
    simp [parseFilterAux, hst]
  | cons x xs ih =>
    intro full i pos inarg acc h hst
    by_cases hx1 : x = ','
    · subst hx1
      simp only [firstBadParen] at h
      simp only [parenState] at hst
      norm_num at hst
      cases inarg with
      | false => simpa [parseFilterAux] using ih full (i + 1) (i + 1) false _ h hst
      | true => simpa [parseFilterAux] using ih full (i + 1) pos true acc h hst
    · by_cases hx2 : x = '('
      · subst hx2
        cases inarg with
        | true => simp [firstBadParen] at h
        | false =>
          simp only [firstBadParen, parenState] at h hst
          norm_num at h hst
          simpa [parseFilterAux] using ih full (i + 1) pos true acc h hst
      · by_cases hx3 : x = ')'
        · subst hx3
          cases inarg with
          | false => simp [firstBadParen] at h
          | true =>
            simp only [firstBadParen, parenState] at h hst
            norm_num at h hst
            simpa [parseFilterAux] using ih full (i + 1) pos false acc h hst
        · simp only [firstBadParen, parenState, if_neg hx2, if_neg hx3] at h hst
          simpa [parseFilterAux, hx1, hx2, hx3] using ih full (i + 1) pos inarg acc h hst

theorem parseAux_ok_splits (rest : List Char) :
    ∀ (full : List Char) (i pos : Nat) (inarg : Bool) (acc : Finset String),
      firstBadParen rest i inarg = none → parenState rest inarg = false →
      rest = full.drop i → pos ≤ i →
      parseFilterAux full rest i pos inarg acc =
        Except.ok ((splitEntries rest inarg (pySlice full pos i)).foldl NameSet.add acc) := by
  induction rest with
  | nil =>
    intro full i pos inarg acc _ hst hdrop hpi
    simp only [parenState] at hst
    subst hst
    rw [pySlice_to_end hdrop.symm hpi]
    simp [parseFilterAux, splitEntries]
  | cons x xs ih =>
    intro full i pos inarg acc h hst hdrop hpi
    have hxs : xs = full.drop (i + 1) := (drop_cons_next hdrop.symm).symm
    have hslice : pySlice full pos (i + 1) = pySlice full pos i ++ [x] :=
      pySlice_snoc hdrop.symm hpi
    by_cases hx1 : x = ','
    · subst hx1
      simp only [firstBadParen] at h
      simp only [parenState] at hst
      simp at h hst
      cases inarg with
      | false =>
        have hnew : pySlice full (i + 1) (i + 1) = [] := by simp [pySlice]
        rw [parseFilterAux_cons, splitEntries_cons]
        simp only [ih full (i + 1) (i + 1) false
          (NameSet.add acc (String.mk (pySlice full pos i))) h hst hxs (Nat.le_refl _), hnew]
        simp
      | true =>
        rw [parseFilterAux_cons, splitEntries_cons]
        simp only [ih full (i + 1) pos true acc h hst hxs
          (Nat.le_trans hpi (Nat.le_succ i)), hslice]
        simp
    · by_cases hx2 : x = '('
      · subst hx2
        cases inarg with
        | true => simp [firstBadParen] at h
        | false =>
          simp only [firstBadParen, parenState] at h hst
          simp at h hst
          rw [parseFilterAux_cons, splitEntries_cons]
          simp only [ih full (i + 1) pos true acc h hst hxs
            (Nat.le_trans hpi (Nat.le_succ i)), hslice]
          simp
      · by_cases hx3 : x = ')'
        · subst hx3
          cases inarg with
          | false => simp [firstBadParen] at h
          | true =>
            simp only [firstBadParen, parenState] at h hst
            simp at h hst
            rw [parseFilterAux_cons, splitEntries_cons]
            simp only [ih full (i + 1) pos false acc h hst hxs
              (Nat.le_trans hpi (Nat.le_succ i)), hslice]
            simp
        · simp only [firstBadParen, parenState, if_neg hx2, if_neg hx3] at h hst
          rw [parseFilterAux_cons, splitEntries_cons]
          simp only [ih full (i + 1) pos inarg acc h hst hxs
            (Nat.le_trans hpi (Nat.le_succ i)), hslice]
          simp [hx1, hx2, hx3]

theorem noSpecial_firstBad (cs : List Char) :
    ∀ (i : Nat) (inarg : Bool), (∀ c ∈ cs, c ≠ ',' ∧ c ≠ '(' ∧ c ≠ ')') →
      firstBadParen cs i inarg = none := by
  induction cs with
  | nil => intro i inarg _; rfl
  | cons x xs ih =>
    intro i inarg h
    have hx := h x (List.mem_cons_self x xs)
    have hxs : ∀ c ∈ xs, c ≠ ',' ∧ c ≠ '(' ∧ c ≠ ')' :=
      fun c hc => h c (List.mem_cons_of_mem x hc)
    simp only [firstBadParen, if_neg hx.2.1, if_neg hx.2.2]
    exact ih (i + 1) inarg hxs

theorem noSpecial_parenState (cs : List Char) :
    ∀ inarg : Bool, (∀ c ∈ cs, c ≠ ',' ∧ c ≠ '(' ∧ c ≠ ')') →
      parenState cs inarg = inarg := by
  induction cs with
  | nil => intro inarg _; rfl
  | cons x xs ih =>
    intro inarg h
    have hx := h x (List.mem_cons_self x xs)
    have hxs : ∀ c ∈ xs, c ≠ ',' ∧ c ≠ '(' ∧ c ≠ ')' :=
      fun c hc => h c (List.mem_cons_of_mem x hc)
    simp only [parenState, if_neg hx.2.1, if_neg hx.2.2]
    exact ih inarg hxs

theorem noSpecial_splitEntries (cs : List Char) :
    ∀ (inarg : Bool) (cur : List Char), (∀ c ∈ cs, c ≠ ',' ∧ c ≠ '(' ∧ c ≠ ')') →
      splitEntries cs inarg cur = [String.mk (cur ++ cs)] := by
  induction cs with
  | nil => intro inarg cur _; simp [splitEntries]
  | cons x xs ih =>
    intro inarg cur h
    have hx := h x (List.mem_cons_self x xs)
    have hxs : ∀ c ∈ xs, c ≠ ',' ∧ c ≠ '(' ∧ c ≠ ')' :=
      fun c hc => h c (List.mem_cons_of_mem x hc)
    rw [splitEntries_cons, if_neg (by simp [hx.1]), if_neg hx.2.1, if_neg hx.2.2,
      ih inarg (cur ++ [x]) hxs]
    simp

/-! ## Claim C3 -/

/-- **C3** (confirmed): `_parse_filter` raises `FilterParseError` exactly in
three situations: an open parenthesis while already inside a group or a close
parenthesis while outside one (message naming the offending character and its
0-based position), and end of string while still inside a group (message
"parenthesis is not closed"); on every other input it returns a set of names
without error. -/
theorem parse_filter_error_conditions (s : String) :
    (∀ c i, firstBadParen s.data 0 false = some (c, i) →
      parseFilter s = Except.error (unexpectedMsg c i)) ∧
    (firstBadParen s.data 0 false = none → parenState s.data false = true →
      parseFilter s = Except.error "parenthesis is not closed") ∧
    (firstBadParen s.data 0 false = none → parenState s.data false = false →
      ∃ r, parseFilter s = Except.ok r) := by
  refine ⟨?_, ?_, ?_⟩
  · intro c i h
    exact parseAux_error_of_firstBad s.data s.data 0 0 false ∅ c i h
  · intro h hst
    exact parseAux_error_of_unclosed s.data s.data 0 0 false ∅ h hst
  · intro h hst
    exact ⟨_, parseAux_ok_splits s.data s.data 0 0 false ∅ h hst rfl (Nat.le_refl 0)⟩

/-- Witness for C3: the three branches evaluated at concrete filter strings
(nested parenthesis, unterminated group, plain name). -/
theorem parse_filter_error_conditions_witness :
    parseFilter "a((b" = Except.error (unexpectedMsg '(' 2) ∧
    parseFilter "a(b" = Except.error "parenthesis is not closed" ∧
    ∃ r, parseFilter "ab" = Except.ok r :=
  ⟨(parse_filter_error_conditions "a((b").1 '(' 2 (by decide),
   (parse_filter_error_conditions "a(b").2.1 (by decide) (by decide),
   (parse_filter_error_conditions "ab").2.2 (by decide) (by decide)⟩

/-! ## Claim C4 -/

/-- **C4** (corrected): on well-formed input `_parse_filter` splits the filter
string at exactly the commas outside a parenthesis pair and adds every entry
and the trailing segment via `NameSet` semantics; the empty string yields the
empty set; a string with no special characters yields the single entry given
by its stripped form — provided that stripped form is non-empty (a whitespace
only string yields no entry, see the counterexample). -/
theorem parse_filter_splitting (s : String) :
    (firstBadParen s.data 0 false = none → parenState s.data false = false →
      parseFilter s = Except.ok ((splitEntries s.data false []).foldl NameSet.add ∅)) ∧
    parseFilter "" = Except.ok ∅ ∧
    (NoSpecialChar s → pyStrip s ≠ "" → parseFilter s = Except.ok {pyStrip s}) := by
  refine ⟨?_, by decide, ?_⟩
  · intro h hst
    exact parseAux_ok_splits s.data s.data 0 0 false ∅ h hst rfl (Nat.le_refl 0)
  · intro hns hne
    have h1 : parseFilter s =
        Except.ok ((splitEntries s.data false []).foldl NameSet.add ∅) :=
      parseAux_ok_splits s.data s.data 0 0 false ∅
        (noSpecial_firstBad s.data 0 false hns) (noSpecial_parenState s.data false hns)
        rfl (Nat.le_refl 0)
    rw [noSpecial_splitEntries s.data false [] hns] at h1
    have hmk : String.mk s.data = s := rfl
    simp only [List.nil_append, hmk] at h1
    rw [h1]
    simp [NameSet.add, hne]

/-- Counterexample for C4 as frozen: `" "` contains no special characters yet
parses to the empty set (zero entries), not to a single entry. -/
theorem parse_filter_blank_counterexample :
    NoSpecialChar " " ∧ parseFilter " " = Except.ok (∅ : Finset String) ∧
      (∅ : Finset String).card = 0 :=
  ⟨by decide, by decide, rfl⟩

/-- Witness for C4: the splitting equation at a filter with a parenthesised
group, and the single-entry case at a plain padded name. -/
theorem parse_filter_splitting_witness :
    parseFilter "a(x,y),b" =
      Except.ok ((splitEntries "a(x,y),b".data false []).foldl NameSet.add ∅) ∧
    parseFilter " ab " = Except.ok {pyStrip " ab "} :=
  ⟨(parse_filter_splitting "a(x,y),b").1 (by decide) (by decide),
   (parse_filter_splitting " ab ").2.2 (by decide) (by decide)⟩

/-! ## Claim C9 -/

/-- **C9** (confirmed): `NameSet.add` first strips the argument; a non-empty
stripped string is inserted into the set, an empty stripped string leaves the
set unchanged. -/
theorem nameset_add_spec (s : Finset String) (name : String) :
    (pyStrip name ≠ "" →
      NameSet.add s name = insert (pyStrip name) s ∧ pyStrip name ∈ NameSet.add s name) ∧
    (pyStrip name = "" → NameSet.add s name = s) := by
  constructor
  · intro h
    constructor
    · simp [NameSet.add, h]
    · simp [NameSet.add, h]
  · intro h
    simp [NameSet.add, h]

/-- Witness for C9: a padded name is stripped and inserted, a whitespace-only
name is dropped. -/
theorem nameset_add_spec_witness :
    NameSet.add (∅ : Finset String) "  a " = {"a"} ∧
    NameSet.add ({"x"} : Finset String) " " = {"x"} := by
  constructor
  · rw [((nameset_add_spec ∅ "  a ").1 (by decide)).1]
    decide
  · exact (nameset_add_spec {"x"} " ").2 (by decide)

/-! ## Claim C8 -/

/-- **C8** (confirmed): the `_name_source_map` property is computed at most
once: the first access computes `nameSourceMap` of the miner list, every later
access returns the identical cached mapping with an unchanged manager, so
resolving twice equals resolving once. -/
theorem name_source_map_memoized (fm : FlowManager) :
    (FlowManager.nameSourceMapAccess (FlowManager.nameSourceMapAccess fm).2).1 =
      (FlowManager.nameSourceMapAccess fm).1 ∧
    (FlowManager.nameSourceMapAccess (FlowManager.nameSourceMapAccess fm).2).2 =
      (FlowManager.nameSourceMapAccess fm).2 ∧
    (fm.cache = none →
      (FlowManager.nameSourceMapAccess fm).1 = nameSourceMap fm.miners) ∧
    (∀ m, fm.cache = some m → (FlowManager.nameSourceMapAccess fm).1 = m) := by
  cases fm with
  | mk miners writers cache =>
    cases cache with
    | none => simp [FlowManager.nameSourceMapAccess]
    | some m => simp [FlowManager.nameSourceMapAccess]

/-- Witness for C8: a fresh manager (empty cache) computes the resolver map on
first access. -/
theorem name_source_map_memoized_witness :
    (FlowManager.nameSourceMapAccess ⟨[⟨0, "A", ["x"]⟩], [], none⟩).1 =
      nameSourceMap [⟨0, "A", ["x"]⟩] :=
  (name_source_map_memoized ⟨[⟨0, "A", ["x"]⟩], [], none⟩).2.2.1 rfl

/-! ## Dictionary lemmas -/

theorem dictGet_dictSet {α β : Type} [DecidableEq α] (d : Dict α β) (k : α) (v : β)
    (k' : α) :
    dictGet (dictSet d k v) k' = if k = k' then some v else dictGet d k' := by
  induction d with
  | nil => simp [dictGet, dictSet]
  | cons e rest ih =>
    obtain ⟨ek, ev⟩ := e
    by_cases hek : ek = k
    · subst hek
      rw [dictSet, if_pos rfl]
      by_cases hk : ek = k'
      · subst hk
        simp [dictGet]
      · simp [dictGet, hk]
    · rw [dictSet, if_neg hek]
      by_cases hk : ek = k'
      · subst hk
        have : ¬ k = ek := fun h => hek h.symm
        simp [dictGet, this]
      · simp [dictGet, hk, ih]

theorem dictGet_append_single {α β : Type} [DecidableEq α] (d : Dict α β) (k : α)
    (v : β) (k' : α) :
    dictGet (d ++ [(k, v)]) k' =
      match dictGet d k' with
      | some w => some w
      | none => if k = k' then some v else none := by
  induction d with
  | nil => simp [dictGet]
  | cons e rest ih =>
    obtain ⟨ek, ev⟩ := e
    by_cases hk : ek = k'
    · subst hk
      simp [dictGet]
    · simp [dictGet, hk, ih]

theorem dictGet_mem {α β : Type} [DecidableEq α] {d : Dict α β} {k : α} {v : β}
    (h : dictGet d k = some v) : (k, v) ∈ d := by
  induction d with
  | nil => simp [dictGet] at h
  | cons e rest ih =>
    obtain ⟨ek, ev⟩ := e
    by_cases hk : ek = k
    · subst hk
      rw [dictGet, if_pos rfl] at h
      obtain rfl := Option.some.inj h
      exact List.mem_cons_self _ _
    · rw [dictGet, if_neg hk] at h
      exact List.mem_cons_of_mem _ (ih h)

theorem mem_dictSet {α β : Type} [DecidableEq α] {d : Dict α β} {k : α} {v : β}
    {e : α × β} (h : e ∈ dictSet d k v) : e ∈ d ∨ e = (k, v) := by
  induction d with
  | nil =>
    simp [dictSet] at h
    exact Or.inr h
  | cons e0 rest ih =>
    obtain ⟨ek, ev⟩ := e0
    by_cases hek : ek = k
    · subst hek
      rw [dictSet, if_pos rfl] at h
      rcases List.mem_cons.mp h with h1 | h1
      · exact Or.inr h1
      · exact Or.inl (List.mem_cons_of_mem _ h1)
    · rw [dictSet, if_neg hek] at h
      rcases List.mem_cons.mp h with h1 | h1
      · exact Or.inl (h1 ▸ List.mem_cons_self _ _)
      · rcases ih h1 with h2 | h2
        · exact Or.inl (List.mem_cons_of_mem _ h2)
        · exact Or.inr h2

theorem keys_dictSet_sub {α β : Type} [DecidableEq α] (d : Dict α β) (k : α) (v : β) :
    ∀ a ∈ (dictSet d k v).map Prod.fst, a = k ∨ a ∈ d.map Prod.fst := by
  induction d with
  | nil => simp [dictSet]
  | cons e rest ih =>
    obtain ⟨ek, ev⟩ := e
    intro a ha
    by_cases hek : ek = k
    · subst hek
      rw [dictSet, if_pos rfl] at ha
      simp only [List.map_cons, List.mem_cons] at ha ⊢
      tauto
    · rw [dictSet, if_neg hek] at ha
      simp only [List.map_cons, List.mem_cons] at ha ⊢
      rcases ha with h1 | h1
      · tauto
      · rcases ih a h1 with h2 | h2 <;> tauto

theorem keys_dictSet_nodup {α β : Type} [DecidableEq α] (d : Dict α β) (k : α) (v : β)
    (h : (d.map Prod.fst).Nodup) : ((dictSet d k v).map Prod.fst).Nodup := by
  induction d with
  | nil => simp [dictSet]
  | cons e rest ih =>
    obtain ⟨ek, ev⟩ := e
    simp only [List.map_cons, List.nodup_cons] at h
    by_cases hek : ek = k
    · subst hek
      rw [dictSet, if_pos rfl]
      simp only [List.map_cons, List.nodup_cons]
      exact h
    · rw [dictSet, if_neg hek]
      simp only [List.map_cons, List.nodup_cons]
      constructor
      · intro hmem
        rcases keys_dictSet_sub rest k v ek hmem with h1 | h1
        · exact hek h1
        · exact h.1 h1
      · exact ih h.2

/-! ## The registration-stream view of the resolver -/

theorem bucketGet_setInner (d : Dict Miner (Dict String String)) (m : Miner)
    (pub src : String) (m' : Miner) (pub' : String) :
    bucketGet (setInner d m pub src) m' pub' =
      if m = m' ∧ pub = pub' then some src else bucketGet d m' pub' := by
  unfold setInner
  cases hd : dictGet d m with
  | some inner =>
    unfold bucketGet
    rw [dictGet_dictSet]
    by_cases hm : m = m'
    · subst hm
      rw [if_pos rfl, hd]
      by_cases hp : pub = pub'
      · simp [dictGet_dictSet, hp]
      · simp [dictGet_dictSet, hp]
    · rw [if_neg hm]
      simp [hm]
  | none =>
    unfold bucketGet
    rw [dictGet_append_single]
    by_cases hm : m = m'
    · subst hm
      rw [hd]
      by_cases hp : pub = pub'
      · simp [dictGet, hp]
      · simp [dictGet, hp]
    · simp only [if_neg hm]
      cases dictGet d m' with
      | some inner' => simp [hm]
      | none => simp [hm]

theorem bucketGet_applyRegs (ws : List (Miner × String × String)) :
    ∀ (d : Dict Miner (Dict String String)) (m : Miner) (pub : String),
      bucketGet (applyRegs d ws) m pub =
        match lastReg ws m pub with
        | some v => some v
        | none => bucketGet d m pub := by
  induction ws with
  | nil => intro d m pub; rfl
  | cons w ws ih =>
    obtain ⟨wm, wpub, wsrc⟩ := w
    intro d m pub
    show bucketGet (applyRegs (setInner d wm wpub wsrc) ws) m pub = _
    rw [ih]
    show _ = match
        (match lastReg ws m pub with
         | some v => some v
         | none => if wm = m ∧ wpub = pub then some wsrc else none) with
      | some v => some v
      | none => bucketGet d m pub
    cases lastReg ws m pub with
    | some v => rfl
    | none =>
      rw [bucketGet_setInner]
      by_cases h : wm = m ∧ wpub = pub
      · simp [h]
      · simp [h]

theorem lastReg_mem {ws : List (Miner × String × String)} {m : Miner} {pub v : String}
    (h : lastReg ws m pub = some v) :
    ∃ w ∈ ws, w.1 = m ∧ w.2.1 = pub ∧ w.2.2 = v := by
  induction ws with
  | nil => simp [lastReg] at h
  | cons w ws ih =>
    obtain ⟨wm, wpub, wsrc⟩ := w
    rw [lastReg] at h
    cases hl : lastReg ws m pub with
    | some v' =>
      rw [hl] at h
      obtain rfl := Option.some.inj h
      obtain ⟨w', hw', hp⟩ := ih hl
      exact ⟨w', List.mem_cons_of_mem _ hw', hp⟩
    | none =>
      rw [hl] at h
      by_cases hc : wm = m ∧ wpub = pub
      · rw [if_pos hc] at h
        obtain rfl := Option.some.inj h
        exact ⟨(wm, wpub, wsrc), List.mem_cons_self _ _, hc.1, hc.2, rfl⟩
      · rw [if_neg hc] at h
        exact absurd h (by simp)

theorem lastReg_eq_some {ws : List (Miner × String × String)} {m : Miner}
    {pub src : String}
    (hmem : (m, pub, src) ∈ ws)
    (huniq : ∀ w ∈ ws, w.1 = m → w.2.1 = pub → w.2.2 = src) :
    lastReg ws m pub = some src := by
  induction ws with
  | nil => simp at hmem
  | cons w ws ih =>
    obtain ⟨wm, wpub, wsrc⟩ := w
    rw [lastReg]
    cases hl : lastReg ws m pub with
    | some v =>
      obtain ⟨w', hw', h1, h2, h3⟩ := lastReg_mem hl
      have := huniq w' (List.mem_cons_of_mem _ hw') h1 h2
      rw [this] at h3
      rw [h3]
    | none =>
      rcases List.mem_cons.mp hmem with heq | hmem'
      · injection heq with h1 h23
        injection h23 with h2 h3
        subst h1
        subst h2
        subst h3
        rw [if_pos ⟨rfl, rfl⟩]
      · have := ih hmem' (fun w hw => huniq w (List.mem_cons_of_mem _ hw))
        rw [this] at hl
        exact absurd hl (by simp)

theorem lastReg_eq_none {ws : List (Miner × String × String)} {m : Miner} {pub : String}
    (h : ∀ w ∈ ws, ¬ (w.1 = m ∧ w.2.1 = pub)) :
    lastReg ws m pub = none := by
  induction ws with
  | nil => rfl
  | cons w ws ih =>
    obtain ⟨wm, wpub, wsrc⟩ := w
    rw [lastReg, ih (fun w hw => h w (List.mem_cons_of_mem _ hw)),
      if_neg (h (wm, wpub, wsrc) (List.mem_cons_self _ _))]

theorem applyRegs_append (xs ys : List (Miner × String × String)) :
    ∀ d, applyRegs d (xs ++ ys) = applyRegs (applyRegs d xs) ys := by
  induction xs with
  | nil => intro d; rfl
  | cons w xs ih =>
    obtain ⟨wm, wpub, wsrc⟩ := w
    intro d
    show applyRegs (setInner d wm wpub wsrc) (xs ++ ys) = _
    rw [ih]
    rfl

theorem foldl_setInner_eq_applyRegs (ms : List Miner) (f : Miner → String)
    (src : String) :
    ∀ d, ms.foldl (fun acc miner => setInner acc miner (f miner) src) d =
      applyRegs d (ms.map (fun miner => (miner, f miner, src))) := by
  induction ms with
  | nil => intro d; rfl
  | cons m ms ih =>
    intro d
    simp only [List.foldl_cons, List.map_cons]
    rw [ih]
    rfl

theorem nameSourceMap_eq_applyRegs (miners : List Miner) :
    nameSourceMap miners = applyRegs [] (registrations miners) := by
  unfold nameSourceMap registrations
  generalize nameMinerMap miners = entries
  suffices h : ∀ d, entries.foldl (fun acc entry =>
      if entry.2.length > 1 then
        entry.2.foldl (fun acc miner =>
          setInner acc miner (entry.1 ++ "_" ++ miner.typeName) entry.1) acc
      else
        match entry.2 with
        | miner :: _ => setInner acc miner entry.1 entry.1
        | [] => acc) d =
      applyRegs d (entries.foldr (fun entry acc =>
        (if entry.2.length > 1 then
          entry.2.map (fun miner => (miner, entry.1 ++ "_" ++ miner.typeName, entry.1))
        else
          entry.2.map (fun miner => (miner, entry.1, entry.1))) ++ acc) []) by
    exact h []
  induction entries with
  | nil => intro d; rfl
  | cons e rest ih =>
    intro d
    simp only [List.foldl_cons, List.foldr_cons]
    rw [applyRegs_append]
    by_cases hl : e.2.length > 1
    · simp only [if_pos hl]
      rw [ih, foldl_setInner_eq_applyRegs]
    · simp only [if_neg hl]
      rw [ih]
      congr 1
      cases h2 : e.2 with
      | nil => rfl
      | cons m0 tail =>
        cases tail with
        | nil => rfl
        | cons m1 tail' =>
          exfalso
          rw [h2] at hl
          simp at hl

theorem mem_foldr_append {α β : Type} (f : α → List β) (l : List α) (b : β) :
    b ∈ l.foldr (fun e acc => f e ++ acc) [] ↔ ∃ e ∈ l, b ∈ f e := by
  induction l with
  | nil => simp
  | cons e l ih =>
    simp only [List.foldr_cons, List.mem_append, ih, List.mem_cons]
    constructor
    · rintro (h | ⟨e', he', hb⟩)
      · exact ⟨e, Or.inl rfl, h⟩
      · exact ⟨e', Or.inr he', hb⟩
    · rintro ⟨e', he' | he', hb⟩
      · exact Or.inl (he' ▸ hb)
      · exact Or.inr ⟨e', he', hb⟩

theorem mem_registrations {miners : List Miner} {w : Miner × String × String} :
    w ∈ registrations miners ↔
      ∃ entry ∈ nameMinerMap miners,
        ((entry.2.length > 1 ∧
            ∃ m ∈ entry.2, w = (m, entry.1 ++ "_" ++ m.typeName, entry.1)) ∨
         (¬ entry.2.length > 1 ∧ ∃ m ∈ entry.2, w = (m, entry.1, entry.1))) := by
  unfold registrations
  rw [mem_foldr_append]
  constructor
  · rintro ⟨e, he, hw⟩
    refine ⟨e, he, ?_⟩
    by_cases hl : e.2.length > 1
    · rw [if_pos hl] at hw
      obtain ⟨m, hm, hw⟩ := List.mem_map.mp hw
      exact Or.inl ⟨hl, m, hm, hw.symm⟩
    · rw [if_neg hl] at hw
      obtain ⟨m, hm, hw⟩ := List.mem_map.mp hw
      exact Or.inr ⟨hl, m, hm, hw.symm⟩
  · rintro ⟨e, he, (⟨hl, m, hm, rfl⟩ | ⟨hl, m, hm, rfl⟩)⟩
    · exact ⟨e, he, by rw [if_pos hl]; exact List.mem_map.mpr ⟨m, hm, rfl⟩⟩
    · exact ⟨e, he, by rw [if_neg hl]; exact List.mem_map.mpr ⟨m, hm, rfl⟩⟩

theorem reg_of_multi {miners : List Miner} {source_name : String} {ms : List Miner}
    (hget : dictGet (nameMinerMap miners) source_name = some ms)
    (hlen : ms.length > 1) {m : Miner} (hm : m ∈ ms) :
    (m, source_name ++ "_" ++ m.typeName, source_name) ∈ registrations miners :=
  mem_registrations.mpr ⟨(source_name, ms), dictGet_mem hget, Or.inl ⟨hlen, m, hm, rfl⟩⟩

theorem reg_of_single {miners : List Miner} {source_name : String} {m : Miner}
    (hget : dictGet (nameMinerMap miners) source_name = some [m]) :
    (m, source_name, source_name) ∈ registrations miners :=
  mem_registrations.mpr ⟨(source_name, [m]), dictGet_mem hget,
    Or.inr ⟨by simp, m, List.mem_cons_self m [], rfl⟩⟩

/-! ## Claim C1 -/

/-- Counterexample for C1 as frozen: with miners `A` (native names
`foo_A, foo`) and `B` (native name `foo`), the native name `foo_A` has exactly
one producing miner, yet the resolver does not keep an identity entry for it:
the colliding name `foo` is processed later and silently overwrites `A`'s
entry `foo_A` with native name `foo`. -/
theorem resolver_identity_overwritten_counterexample :
    dictGet (nameMinerMap [⟨0, "A", ["foo_A", "foo"]⟩, ⟨1, "B", ["foo"]⟩]) "foo_A" =
      some [⟨0, "A", ["foo_A", "foo"]⟩] ∧
    bucketGet (nameSourceMap [⟨0, "A", ["foo_A", "foo"]⟩, ⟨1, "B", ["foo"]⟩])
      ⟨0, "A", ["foo_A", "foo"]⟩ "foo_A" = some "foo" ∧
    ¬ bucketGet (nameSourceMap [⟨0, "A", ["foo_A", "foo"]⟩, ⟨1, "B", ["foo"]⟩])
      ⟨0, "A", ["foo_A", "foo"]⟩ "foo_A" = some "foo_A" :=
  ⟨by decide, by decide, by decide⟩

/-- **C1** (corrected): provided the generated entries never clash — no two
registrations with the same miner and public name disagree on the native name
(`RegsConsistent`), and no renamed public name equals a multi-produced native
name (`NoBareCollision`) — the resolver maps a native name with exactly one
producing occurrence to an identity entry in that miner's bucket, maps a
native name with two or more producing occurrences to the renamed per-miner
entries, and never exposes such a colliding native name as a public name. -/
theorem resolver_collision_handling (miners : List Miner)
    (hcons : RegsConsistent miners) (hbare : NoBareCollision miners) :
    (∀ source_name m, dictGet (nameMinerMap miners) source_name = some [m] →
      bucketGet (nameSourceMap miners) m source_name = some source_name) ∧
    (∀ source_name ms, dictGet (nameMinerMap miners) source_name = some ms →
      ms.length > 1 → ∀ m ∈ ms,
        bucketGet (nameSourceMap miners) m (source_name ++ "_" ++ m.typeName) =
          some source_name) ∧
    (∀ source_name ms, dictGet (nameMinerMap miners) source_name = some ms →
      ms.length > 1 → ∀ m',
        bucketGet (nameSourceMap miners) m' source_name = none) := by
  refine ⟨?_, ?_, ?_⟩
  · intro sn m hget
    rw [nameSourceMap_eq_applyRegs, bucketGet_applyRegs]
    rw [lastReg_eq_some (reg_of_single hget)
      (fun w hw h1 h2 => hcons w hw (m, sn, sn) (reg_of_single hget) h1 h2)]
  · intro sn ms hget hlen m hm
    rw [nameSourceMap_eq_applyRegs, bucketGet_applyRegs]
    rw [lastReg_eq_some (reg_of_multi hget hlen hm)
      (fun w hw h1 h2 =>
        hcons w hw (m, sn ++ "_" ++ m.typeName, sn) (reg_of_multi hget hlen hm) h1 h2)]
  · intro sn ms hget hlen m'
    rw [nameSourceMap_eq_applyRegs, bucketGet_applyRegs]
    rw [lastReg_eq_none
      (fun w hw hc => hbare (sn, ms) (dictGet_mem hget) hlen w hw hc.2)]
    rfl

/-- Witness for C1: both hypotheses hold for miners `A` (names `a, b`) and `B`
(name `a`); the resolver keeps `b` as identity, renames `a` for both miners,
and exposes no bare `a`. -/
theorem resolver_collision_handling_witness :
    bucketGet (nameSourceMap [⟨0, "A", ["a", "b"]⟩, ⟨1, "B", ["a"]⟩])
      ⟨0, "A", ["a", "b"]⟩ "b" = some "b" ∧
    bucketGet (nameSourceMap [⟨0, "A", ["a", "b"]⟩, ⟨1, "B", ["a"]⟩])
      ⟨0, "A", ["a", "b"]⟩ "a_A" = some "a" ∧
    bucketGet (nameSourceMap [⟨0, "A", ["a", "b"]⟩, ⟨1, "B", ["a"]⟩])
      ⟨1, "B", ["a"]⟩ "a" = none := by
  have h := resolver_collision_handling [⟨0, "A", ["a", "b"]⟩, ⟨1, "B", ["a"]⟩]
    (by decide) (by decide)
  refine ⟨h.1 "b" ⟨0, "A", ["a", "b"]⟩ (by decide), ?_, ?_⟩
  · exact h.2.1 "a" [⟨0, "A", ["a", "b"]⟩, ⟨1, "B", ["a"]⟩] (by decide) (by decide)
      ⟨0, "A", ["a", "b"]⟩ (by decide)
  · exact h.2.2 "a" [⟨0, "A", ["a", "b"]⟩, ⟨1, "B", ["a"]⟩] (by decide) (by decide)
      ⟨1, "B", ["a"]⟩

/-! ## Claim C5 -/

theorem setInner_inner_nodup {d : Dict Miner (Dict String String)} {m : Miner}
    {pub src : String}
    (h : ∀ e ∈ d, (e.2.map Prod.fst).Nodup) :
    ∀ e ∈ setInner d m pub src, (e.2.map Prod.fst).Nodup := by
  intro e he
  unfold setInner at he
  cases hd : dictGet d m with
  | some inner =>
    rw [hd] at he
    rcases mem_dictSet he with h1 | h1
    · exact h e h1
    · subst h1
      exact keys_dictSet_nodup inner pub src (h (m, inner) (dictGet_mem hd))
  | none =>
    rw [hd] at he
    rcases List.mem_append.mp he with h1 | h1
    · exact h e h1
    · simp only [List.mem_singleton] at h1
      subst h1
      simp

theorem applyRegs_inner_nodup (ws : List (Miner × String × String)) :
    ∀ d, (∀ e ∈ d, (e.2.map Prod.fst).Nodup) →
      ∀ e ∈ applyRegs d ws, (e.2.map Prod.fst).Nodup := by
  induction ws with
  | nil => intro d h; exact h
  | cons w ws ih =>
    obtain ⟨wm, wpub, wsrc⟩ := w
    intro d h
    exact ih _ (setInner_inner_nodup h)

theorem bucketGet_ne_none_reg {miners : List Miner} {m : Miner} {pub : String}
    (h : bucketGet (nameSourceMap miners) m pub ≠ none) :
    ∃ w ∈ registrations miners, w.1 = m ∧ w.2.1 = pub := by
  rw [nameSourceMap_eq_applyRegs, bucketGet_applyRegs] at h
  cases hl : lastReg (registrations miners) m pub with
  | some v =>
    obtain ⟨w, hw, h1, h2, _⟩ := lastReg_mem hl
    exact ⟨w, hw, h1, h2⟩
  | none =>
    rw [hl] at h
    exact absurd rfl h

/-- Counterexample for C5 as frozen: with miners `A` (native `X`) and `B`
(natives `X, X_A`), the public name `X_A` appears in both miners' buckets, so
public names are not globally unique across the namespace. -/
theorem namespace_uniqueness_counterexample :
    bucketGet (nameSourceMap [⟨0, "A", ["X"]⟩, ⟨1, "B", ["X", "X_A"]⟩])
      ⟨0, "A", ["X"]⟩ "X_A" = some "X" ∧
    bucketGet (nameSourceMap [⟨0, "A", ["X"]⟩, ⟨1, "B", ["X", "X_A"]⟩])
      ⟨1, "B", ["X", "X_A"]⟩ "X_A" = some "X_A" ∧
    (⟨0, "A", ["X"]⟩ : Miner) ≠ ⟨1, "B", ["X", "X_A"]⟩ :=
  ⟨by decide, by decide, by decide⟩

/-- **C5** (corrected): within one miner's bucket every public name maps to
exactly one native name (the bucket's keys are unique); and provided every
generated public name determines its miner (`RegsMinerDetermined` — which
fails when type names collide or a renamed name equals another native name),
no public name appears in two different miners' buckets. -/
theorem namespace_public_name_uniqueness (miners : List Miner) :
    (∀ m bucket, dictGet (nameSourceMap miners) m = some bucket →
      (bucket.map Prod.fst).Nodup) ∧
    (RegsMinerDetermined miners →
      ∀ m1 m2 pub, bucketGet (nameSourceMap miners) m1 pub ≠ none →
        bucketGet (nameSourceMap miners) m2 pub ≠ none → m1 = m2) := by
  constructor
  · intro m bucket hget
    have h0 : ∀ e ∈ ([] : Dict Miner (Dict String String)),
        (e.2.map Prod.fst).Nodup := by simp
    have hmem : (m, bucket) ∈ applyRegs [] (registrations miners) := by
      rw [← nameSourceMap_eq_applyRegs]
      exact dictGet_mem hget
    exact applyRegs_inner_nodup (registrations miners) [] h0 (m, bucket) hmem
  · intro hdet m1 m2 pub h1 h2
    obtain ⟨w1, hw1, e11, e12⟩ := bucketGet_ne_none_reg h1
    obtain ⟨w2, hw2, e21, e22⟩ := bucketGet_ne_none_reg h2
    have := hdet w1 hw1 w2 hw2 (by rw [e12, e22])
    rw [e11, e21] at this
    exact this

/-- Witness for C5: inner-bucket key uniqueness on a concrete resolved map,
and the cross-bucket property under a concretely checked
`RegsMinerDetermined`. -/
theorem namespace_public_name_uniqueness_witness :
    (([("a_A", "a")] : Dict String String).map Prod.fst).Nodup ∧
    (⟨0, "A", ["a"]⟩ : Miner) = ⟨0, "A", ["a"]⟩ := by
  have h := namespace_public_name_uniqueness [⟨0, "A", ["a"]⟩, ⟨1, "B", ["a"]⟩]
  constructor
  · exact h.1 ⟨0, "A", ["a"]⟩ [("a_A", "a")] (by decide)
  · exact h.2 (by decide) ⟨0, "A", ["a"]⟩ ⟨0, "A", ["a"]⟩ "a_A" (by decide) (by decide)

/-! ## Claim C10 -/

theorem dictGet_dictAppend {α β : Type} [DecidableEq α] (d : Dict α (List β)) (k : α)
    (x : β) (k' : α) :
    dictGet (dictAppend d k x) k' =
      if k = k' then some ((dictGet d k').getD [] ++ [x]) else dictGet d k' := by
  unfold dictAppend
  cases hd : dictGet d k with
  | some xs =>
    rw [dictGet_dictSet]
    by_cases hk : k = k'
    · subst hk
      simp [hd]
    · simp [hk]
  | none =>
    rw [dictGet_append_single]
    by_cases hk : k = k'
    · subst hk
      rw [hd]
      simp
    · cases h' : dictGet d k' <;> simp [hk, h']

theorem dictGet_foldl_contnames (cs : List String) (m : Miner) :
    ∀ (d : Dict String (List Miner)) (sn : String),
      dictGet (cs.foldl (fun acc c => dictAppend acc c m) d) sn =
        match dictGet d sn with
        | some xs => some (xs ++ List.replicate (cs.count sn) m)
        | none =>
          if cs.count sn = 0 then none
          else some (List.replicate (cs.count sn) m) := by
  induction cs with
  | nil =>
    intro d sn
    cases hd : dictGet d sn <;> simp [hd]
  | cons c cs ih =>
    intro d sn
    simp only [List.foldl_cons]
    rw [ih, dictGet_dictAppend]
    have hcount : (c :: cs).count sn = cs.count sn + if c = sn then 1 else 0 := by
      simp [List.count_cons]
    by_cases hc : c = sn
    · subst hc
      rw [if_pos rfl]
      cases hd : dictGet d c with
      | some xs =>
        simp only [Option.getD_some]
        rw [hcount, if_pos rfl]
        simp [List.append_assoc, List.replicate_succ]
      | none =>
        simp only [Option.getD_none, List.nil_append]
        rw [hcount, if_pos rfl]
        have h1 : cs.count c + 1 ≠ 0 := by omega
        rw [if_neg h1]
        simp [List.replicate_succ]
    · rw [if_neg hc, hcount, if_neg hc, Nat.add_zero]

theorem dictGet_nameMinerMap_aux (miners : List Miner) :
    ∀ (d : Dict String (List Miner)) (sn : String),
      dictGet (miners.foldl (fun acc miner =>
          miner.contnames.foldl (fun acc c => dictAppend acc c miner) acc) d) sn =
        match dictGet d sn with
        | some xs => some (xs ++ producersOf miners sn)
        | none =>
          if producersOf miners sn = [] then none
          else some (producersOf miners sn) := by
  induction miners with
  | nil =>
    intro d sn
    cases hd : dictGet d sn <;> simp [hd, producersOf]
  | cons m rest ih =>
    intro d sn
    simp only [List.foldl_cons]
    rw [ih, dictGet_foldl_contnames]
    have hp : producersOf (m :: rest) sn =
        List.replicate (m.contnames.count sn) m ++ producersOf rest sn := rfl
    rw [hp]
    cases hd : dictGet d sn with
    | some xs => simp [List.append_assoc]
    | none =>
      by_cases hk : m.contnames.count sn = 0
      · rw [if_pos hk]
        simp [hk]
      · rw [if_neg hk]
        have hne : List.replicate (m.contnames.count sn) m ++ producersOf rest sn ≠ [] := by
          intro hcon
          have h2 := (List.append_eq_nil.mp hcon).1
          have h3 := congrArg List.length h2
          simp at h3
          exact hk h3
        rw [if_neg hne]

theorem dictGet_nameMinerMap (miners : List Miner) (sn : String) :
    dictGet (nameMinerMap miners) sn =
      if producersOf miners sn = [] then none
      else some (producersOf miners sn) := by
  unfold nameMinerMap
  rw [dictGet_nameMinerMap_aux]
  rfl

theorem mem_producersOf {miners : List Miner} {sn : String} {x : Miner} :
    x ∈ producersOf miners sn ↔
      ∃ m ∈ miners, x = m ∧ m.contnames.count sn ≠ 0 := by
  unfold producersOf
  rw [mem_foldr_append]
  constructor
  · rintro ⟨m, hm, hx⟩
    obtain ⟨hn, rfl⟩ := List.mem_replicate.mp hx
    exact ⟨x, hm, rfl, hn⟩
  · rintro ⟨m, hm, rfl, hn⟩
    exact ⟨x, hm, List.mem_replicate.mpr ⟨hn, rfl⟩⟩

theorem count_le_length_producersOf {miners : List Miner} {sn : String} {m : Miner}
    (hm : m ∈ miners) : m.contnames.count sn ≤ (producersOf miners sn).length := by
  induction miners with
  | nil => simp at hm
  | cons m0 rest ih =>
    have hlen : (producersOf (m0 :: rest) sn).length =
        m0.contnames.count sn + (producersOf rest sn).length := by
      simp [producersOf]
    rcases List.mem_cons.mp hm with rfl | hm'
    · omega
    · have := ih hm'
      omega

/-- Counterexample for C10 as frozen: the single miner `A` enumerates `x_A`
twice (and `x` twice); the resolver takes the collision branch for `x_A` and
registers `x_A_A`, but the bare name `x_A` nevertheless appears as a public
name, introduced by the renaming of the other duplicated native `x`. -/
theorem duplicate_enumeration_counterexample :
    dictGet (nameMinerMap [⟨0, "A", ["x_A", "x_A", "x", "x"]⟩]) "x_A" =
      some [⟨0, "A", ["x_A", "x_A", "x", "x"]⟩, ⟨0, "A", ["x_A", "x_A", "x", "x"]⟩] ∧
    bucketGet (nameSourceMap [⟨0, "A", ["x_A", "x_A", "x", "x"]⟩])
      ⟨0, "A", ["x_A", "x_A", "x", "x"]⟩ "x_A_A" = some "x_A" ∧
    bucketGet (nameSourceMap [⟨0, "A", ["x_A", "x_A", "x", "x"]⟩])
      ⟨0, "A", ["x_A", "x_A", "x", "x"]⟩ "x_A" = some "x" :=
  ⟨by decide, by decide, by decide⟩

/-- **C10** (corrected): if one miner enumerates the same native name at least
twice while no other miner produces it, the resolver records that miner once
per occurrence in the producers list, takes the collision branch, and — when
the generated entries do not clash (`RegsConsistent`, `NoBareCollision`) —
registers only the renamed public name for that miner, the bare native name
appearing in no bucket. -/
theorem duplicate_enumeration_collision (miners : List Miner) (m : Miner)
    (source_name : String)
    (hcons : RegsConsistent miners) (hbare : NoBareCollision miners)
    (hm : m ∈ miners)
    (hcount : 2 ≤ m.contnames.count source_name)
    (honly : ∀ m' ∈ miners, m' ≠ m → m'.contnames.count source_name = 0) :
    (∃ ms, dictGet (nameMinerMap miners) source_name = some ms ∧
      2 ≤ ms.length ∧ ∀ x ∈ ms, x = m) ∧
    bucketGet (nameSourceMap miners) m (source_name ++ "_" ++ m.typeName) =
      some source_name ∧
    (∀ m', bucketGet (nameSourceMap miners) m' source_name = none) := by
  have hlen : 2 ≤ (producersOf miners source_name).length :=
    le_trans hcount (count_le_length_producersOf hm)
  have hne : producersOf miners source_name ≠ [] := by
    intro h
    rw [h] at hlen
    simp at hlen
  have hget : dictGet (nameMinerMap miners) source_name =
      some (producersOf miners source_name) := by
    rw [dictGet_nameMinerMap, if_neg hne]
  have hall : ∀ x ∈ producersOf miners source_name, x = m := by
    intro x hx
    obtain ⟨m', hm', rfl, hc⟩ := mem_producersOf.mp hx
    by_contra hne'
    exact hc (honly x hm' hne')
  have hmem : m ∈ producersOf miners source_name :=
    mem_producersOf.mpr ⟨m, hm, rfl, by omega⟩
  have hlen1 : (producersOf miners source_name).length > 1 := by omega
  refine ⟨⟨producersOf miners source_name, hget, hlen, hall⟩, ?_, ?_⟩
  · rw [nameSourceMap_eq_applyRegs, bucketGet_applyRegs]
    rw [lastReg_eq_some (reg_of_multi hget hlen1 hmem)
      (fun w hw h1 h2 =>
        hcons w hw (m, source_name ++ "_" ++ m.typeName, source_name)
          (reg_of_multi hget hlen1 hmem) h1 h2)]
  · intro m'
    rw [nameSourceMap_eq_applyRegs, bucketGet_applyRegs]
    rw [lastReg_eq_none
      (fun w hw hc =>
        hbare (source_name, producersOf miners source_name)
          (dictGet_mem hget) hlen1 w hw hc.2)]
    rfl

/-- Witness for C10: miner `A` enumerates `x` twice and miner `B` does not
produce it; the resolver renames to `x_A` and drops the bare `x`. -/
theorem duplicate_enumeration_collision_witness :
    bucketGet (nameSourceMap [⟨0, "A", ["x", "x"]⟩, ⟨1, "B", ["y"]⟩])
      ⟨0, "A", ["x", "x"]⟩ "x_A" = some "x" ∧
    bucketGet (nameSourceMap [⟨0, "A", ["x", "x"]⟩, ⟨1, "B", ["y"]⟩])
      ⟨0, "A", ["x", "x"]⟩ "x" = none := by
  have h := duplicate_enumeration_collision [⟨0, "A", ["x", "x"]⟩, ⟨1, "B", ["y"]⟩]
    ⟨0, "A", ["x", "x"]⟩ "x" (by decide) (by decide) (by decide) (by decide)
    (by decide)
  exact ⟨h.2.1, h.2.2 ⟨0, "A", ["x", "x"]⟩⟩

/-! ## Sorting lemmas -/

theorem mem_insOrd {α : Type} (lt : α → α → Bool) (x : α) (l : List α) (y : α) :
    y ∈ insOrd lt x l ↔ y = x ∨ y ∈ l := by
  induction l with
  | nil => simp [insOrd]
  | cons z zs ih =>
    by_cases h : lt z x = true
    · simp only [insOrd, if_pos h, List.mem_cons, ih]
      tauto
    · simp only [insOrd, if_neg h, List.mem_cons]

theorem pairwise_insOrd (x : String) (l : List String)
    (hp : l.Pairwise (fun a b => strLt a b = true))
    (hne : ∀ y ∈ l, y ≠ x) :
    (insOrd strLt x l).Pairwise (fun a b => strLt a b = true) := by
  induction l with
  | nil => simp [insOrd]
  | cons y ys ih =>
    obtain ⟨hy, hys⟩ := List.pairwise_cons.mp hp
    by_cases h : strLt y x = true
    · rw [insOrd, if_pos h]
      refine List.pairwise_cons.mpr ⟨?_, ih hys (fun z hz => hne z (List.mem_cons_of_mem _ hz))⟩
      intro z hz
      rcases (mem_insOrd strLt x ys z).mp hz with rfl | hz'
      · exact h
      · exact hy z hz'
    · rw [insOrd, if_neg h]
      have hxy : strLt x y = true := by
        cases hxy : strLt x y with
        | true => rfl
        | false =>
          exact absurd (strLt_conn x y hxy (Bool.not_eq_true _ ▸ h)).symm
            (hne y (List.mem_cons_self _ _))
      refine List.pairwise_cons.mpr ⟨?_, hp⟩
      intro z hz
      rcases List.mem_cons.mp hz with rfl | hz'
      · exact hxy
      · exact strLt_trans x y z hxy (hy z hz')

theorem foldr_insOrd_mem (l : List String) (a : String) :
    a ∈ l.foldr (insOrd strLt) [] ↔ a ∈ l := by
  induction l with
  | nil => simp
  | cons x xs ih =>
    simp only [List.foldr_cons, mem_insOrd, ih, List.mem_cons]

theorem foldr_insOrd_pairwise (l : List String) (h : l.Nodup) :
    (l.foldr (insOrd strLt) []).Pairwise (fun a b => strLt a b = true) := by
  induction l with
  | nil => simp
  | cons x xs ih =>
    obtain ⟨hx, hxs⟩ := List.nodup_cons.mp h
    simp only [List.foldr_cons]
    refine pairwise_insOrd x _ (ih hxs) ?_
    intro y hy
    intro hcon
    subst hcon
    exact hx ((foldr_insOrd_mem xs y).mp hy)

theorem sortedNames_spec (s : Finset String) :
    (∀ a, a ∈ sortedNames s ↔ a ∈ s) ∧
    (sortedNames s).Pairwise (fun a b => strLt a b = true) := by
  obtain ⟨val, hnodup⟩ := s
  induction val using Quotient.inductionOn with
  | h l =>
    have hl : l.Nodup := hnodup
    have hfold : sortedNames ⟨Quotient.mk _ l, hnodup⟩ = l.foldr (insOrd strLt) [] := rfl
    rw [hfold]
    constructor
    · intro a
      rw [foldr_insOrd_mem]
      exact Iff.symm (Finset.mem_mk.trans (Multiset.mem_coe))
    · exact foldr_insOrd_pairwise l hl

theorem sortedNames_toFinset (s : Finset String) : (sortedNames s).toFinset = s := by
  ext a
  rw [List.mem_toFinset]
  exact (sortedNames_spec s).1 a

theorem foldl_insert_eq_union (l : List String) :
    ∀ p : Finset String, l.foldl (fun acc n => insert n acc) p = p ∪ l.toFinset := by
  induction l with
  | nil => intro p; simp
  | cons x xs ih =>
    intro p
    simp only [List.foldl_cons, ih, List.toFinset_cons]
    ext a
    simp

theorem foldl_insert_sortedNames (s p : Finset String) :
    (sortedNames s).foldl (fun acc n => insert n acc) p = p ∪ s := by
  rw [foldl_insert_eq_union, sortedNames_toFinset]

/-! ## Run-loop characterizations (no interrupt) -/

theorem writeLoop_no_ki (write : Writer' → String → Data → Outcome Unit)
    (modified_name : String) (container_data : Data) (ws : List Writer') :
    ∀ evs : List Event,
      (∀ w ∈ ws, write w modified_name container_data ≠ Outcome.keyboardInterrupt) →
      writeLoop write modified_name container_data ws evs =
        Except.ok (evs ++ writerEvents write ws modified_name container_data) := by
  induction ws with
  | nil => intro evs _; simp [writeLoop, writerEvents]
  | cons w ws ih =>
    intro evs h
    have hw := h w (List.mem_cons_self _ _)
    have hws := fun w' hw' => h w' (List.mem_cons_of_mem _ hw')
    cases hc : write w modified_name container_data with
    | keyboardInterrupt => exact absurd hc hw
    | ok u =>
      simp only [writeLoop, hc]
      rw [ih _ hws]
      simp [writerEvents, hc]
    | exn en em =>
      simp only [writeLoop, hc]
      rw [ih _ hws]
      simp [writerEvents, hc]

theorem nameLoop_no_ki (get_data : Miner → String → Outcome Data)
    (write : Writer' → String → Data → Outcome Unit) (writers : List Writer')
    (miner : Miner) (miner_names_map : Dict String String)
    (hki : ∀ src, get_data miner src ≠ Outcome.keyboardInterrupt)
    (hwki : ∀ w n d, write w n d ≠ Outcome.keyboardInterrupt)
    (names : List String) :
    ∀ (evs : List Event) (processed : Finset String),
      nameLoop get_data write writers miner miner_names_map names evs processed =
        Except.ok (evs ++ names.foldr (fun n acc =>
            nameEvents get_data write writers miner miner_names_map n ++ acc) [],
          names.foldl (fun acc n => insert n acc) processed) := by
  induction names with
  | nil => intro evs processed; simp [nameLoop]
  | cons n ns ih =>
    intro evs processed
    cases hf : get_data miner ((dictGet miner_names_map n).getD "") with
    | keyboardInterrupt => exact absurd hf (hki _)
    | exn en em =>
      simp only [nameLoop, hf]
      rw [ih]
      simp [nameEvents, hf]
    | ok d =>
      simp only [nameLoop, hf]
      rw [writeLoop_no_ki write n d writers _ (fun w _ => hwki w n d)]
      dsimp only
      rw [ih]
      simp [nameEvents, hf]

theorem selection_def (ns_map : Dict Miner (Dict String String))
    (filter_set : Finset String) (m : Miner) :
    selection ns_map filter_set m =
      if filter_set ≠ ∅ then
        (((dictGet ns_map m).getD []).map Prod.fst).toFinset ∩ filter_set
      else (((dictGet ns_map m).getD []).map Prod.fst).toFinset := rfl

theorem minerLoop_no_ki (get_data : Miner → String → Outcome Data)
    (write : Writer' → String → Data → Outcome Unit) (writers : List Writer')
    (ns_map : Dict Miner (Dict String String)) (filter_set : Finset String)
    (hki : ∀ m src, get_data m src ≠ Outcome.keyboardInterrupt)
    (hwki : ∀ w n d, write w n d ≠ Outcome.keyboardInterrupt)
    (order : List Miner) :
    ∀ (evs : List Event) (processed : Finset String),
      minerLoop get_data write writers ns_map filter_set order evs processed =
        Except.ok (evs ++ order.foldr (fun m acc =>
            (if selection ns_map filter_set m = ∅ then []
             else minerEvents get_data write writers ns_map filter_set m) ++ acc) [],
          order.foldl (fun acc m => acc ∪ selection ns_map filter_set m) processed) := by
  induction order with
  | nil => intro evs processed; simp [minerLoop]
  | cons m ms ih =>
    intro evs processed
    by_cases hsel : selection ns_map filter_set m = ∅
    · have : minerLoop get_data write writers ns_map filter_set (m :: ms) evs processed =
          minerLoop get_data write writers ns_map filter_set ms evs processed := by
        simp only [minerLoop]
        rw [← selection_def, if_pos hsel]
      rw [this, ih]
      rw [List.foldr_cons, if_pos hsel, List.nil_append, List.foldl_cons, hsel,
        Finset.union_empty]
    · have : minerLoop get_data write writers ns_map filter_set (m :: ms) evs processed =
          match nameLoop get_data write writers m ((dictGet ns_map m).getD [])
              (sortedNames (selection ns_map filter_set m))
              (evs ++ [Event.header m.typeName]) processed with
          | Except.error evs' => Except.error evs'
          | Except.ok (evs', processed') =>
            minerLoop get_data write writers ns_map filter_set ms evs' processed' := by
        simp only [minerLoop]
        rw [← selection_def, if_neg hsel]
      rw [this, nameLoop_no_ki get_data write writers m _ (hki m) hwki]
      dsimp only
      rw [ih, foldl_insert_sortedNames]
      rw [List.foldr_cons, if_neg hsel, List.foldl_cons]
      simp [minerEvents, List.append_assoc]

/-! ## Claim C2 -/

theorem writeCall_mem_writerEvents (write : Writer' → String → Data → Outcome Unit)
    (ws : List Writer') (n : String) (d : Data) {w : Writer'} (hw : w ∈ ws) :
    Event.writeCall w.typeName n d ∈ writerEvents write ws n d := by
  unfold writerEvents
  rw [mem_foldr_append]
  refine ⟨w, hw, ?_⟩
  cases write w n d <;> simp

/-- **C2** (confirmed): an exception from a miner's fetch is reported and the
run continues with the remaining names and miners; an exception from one
writer's write is reported and every remaining writer still receives the same
pair; a `KeyboardInterrupt` from either call propagates immediately — out of
`run` with the report suppressed — and, absent interrupts, `run` always
completes. -/
theorem failure_isolation (get_data : Miner → String → Outcome Data)
    (write : Writer' → String → Data → Outcome Unit) :
    (∀ (w : Writer') (ws : List Writer') (n : String) (d : Data) (evs : List Event)
        (ename emsg : String),
      write w n d = Outcome.exn ename emsg →
      writeLoop write n d (w :: ws) evs =
        writeLoop write n d ws
          (evs ++ [Event.writeCall w.typeName n d, Event.writeFail w.typeName ename emsg])) ∧
    (∀ (ws : List Writer') (n : String) (d : Data) (evs : List Event),
      (∀ w ∈ ws, write w n d ≠ Outcome.keyboardInterrupt) →
      ∃ evs', writeLoop write n d ws evs = Except.ok (evs ++ evs') ∧
        ∀ w ∈ ws, Event.writeCall w.typeName n d ∈ evs') ∧
    (∀ (writers : List Writer') (miner : Miner) (bucket : Dict String String)
        (n : String) (ns : List String) (evs : List Event) (processed : Finset String)
        (ename emsg : String),
      get_data miner ((dictGet bucket n).getD "") = Outcome.exn ename emsg →
      nameLoop get_data write writers miner bucket (n :: ns) evs processed =
        nameLoop get_data write writers miner bucket ns
          (evs ++ [Event.processing n, Event.fetchFail ename emsg])
          (insert n processed)) ∧
    (∀ (writers : List Writer') (miner : Miner) (bucket : Dict String String)
        (n : String) (ns : List String) (evs : List Event) (processed : Finset String),
      get_data miner ((dictGet bucket n).getD "") = Outcome.keyboardInterrupt →
      nameLoop get_data write writers miner bucket (n :: ns) evs processed =
        Except.error (evs ++ [Event.processing n])) ∧
    (∀ (w : Writer') (ws : List Writer') (n : String) (d : Data) (evs : List Event),
      write w n d = Outcome.keyboardInterrupt →
      writeLoop write n d (w :: ws) evs =
        Except.error (evs ++ [Event.writeCall w.typeName n d])) ∧
    (∀ (miners : List Miner) (writers : List Writer') (filter_string : String)
        (filter_set : Finset String),
      parseFilter filter_string = Except.ok filter_set →
      (∀ m src, get_data m src ≠ Outcome.keyboardInterrupt) →
      (∀ w n d, write w n d ≠ Outcome.keyboardInterrupt) →
      ∃ evs, run miners writers get_data write filter_string =
        Except.ok (evs, RunEnd.completed)) ∧
    (∀ (miners : List Miner) (writers : List Writer') (filter_string : String)
        (filter_set : Finset String) (evs : List Event),
      parseFilter filter_string = Except.ok filter_set →
      minerLoop get_data write writers (nameSourceMap miners) filter_set
        (sortByRegistration miners ((nameSourceMap miners).map Prod.fst)) [] ∅ =
          Except.error evs →
      run miners writers get_data write filter_string =
        Except.ok (evs, RunEnd.interrupted)) := by
  refine ⟨?_, ?_, ?_, ?_, ?_, ?_, ?_⟩
  · intro w ws n d evs ename emsg h
    simp [writeLoop, h]
  · intro ws n d evs h
    refine ⟨writerEvents write ws n d, writeLoop_no_ki write n d ws evs h, ?_⟩
    intro w hw
    exact writeCall_mem_writerEvents write ws n d hw
  · intro writers miner bucket n ns evs processed ename emsg h
    simp [nameLoop, h]
  · intro writers miner bucket n ns evs processed h
    simp [nameLoop, h]
  · intro w ws n d evs h
    simp [writeLoop, h]
  · intro miners writers filter_string filter_set hp hki hwki
    simp only [run, hp]
    rw [minerLoop_no_ki get_data write writers _ _ hki hwki]
    exact ⟨_, rfl⟩
  · intro miners writers filter_string filter_set evs hp hm
    simp only [run, hp]
    rw [hm]

/-- Witness for C2: a concrete environment where one writer raises, one fetch
raises, and a second scenario where a fetch raises `KeyboardInterrupt`. -/
theorem failure_isolation_witness :
    (writeLoop (fun _ _ _ => Outcome.exn "IOError" "disk full") "n" "d"
        [⟨0, "W0"⟩, ⟨1, "W1"⟩] [] =
      writeLoop (fun _ _ _ => Outcome.exn "IOError" "disk full") "n" "d" [⟨1, "W1"⟩]
        [Event.writeCall "W0" "n" "d", Event.writeFail "W0" "IOError" "disk full"]) ∧
    (∃ evs, run [⟨0, "A", ["x"]⟩] [⟨0, "W0"⟩]
        (fun _ _ => Outcome.exn "KeyError" "missing")
        (fun _ _ _ => Outcome.ok ()) "" = Except.ok (evs, RunEnd.completed)) ∧
    nameLoop (fun _ _ => Outcome.keyboardInterrupt)
        (fun _ _ _ => Outcome.ok ()) [⟨0, "W0"⟩] ⟨0, "A", ["x"]⟩ [("x", "x")]
        ["x"] [] ∅ = Except.error [Event.processing "x"] := by
  have h := failure_isolation (fun _ _ => Outcome.exn "KeyError" "missing")
    (fun _ _ _ => Outcome.ok ())
  have h2 := failure_isolation (fun _ _ => Outcome.keyboardInterrupt)
    (fun _ _ _ => Outcome.ok ())
  have h3 := failure_isolation (fun _ _ => Outcome.ok "v")
    (fun _ _ _ => Outcome.exn "IOError" "disk full")
  refine ⟨?_, ?_, ?_⟩
  · exact h3.1 ⟨0, "W0"⟩ [⟨1, "W1"⟩] "n" "d" [] "IOError" "disk full" rfl
  · exact h.2.2.2.2.2.1 [⟨0, "A", ["x"]⟩] [⟨0, "W0"⟩] "" ∅ (by decide)
      (fun _ _ => by simp) (fun _ _ _ => by simp)
  · exact h2.2.2.2.1 [⟨0, "W0"⟩] ⟨0, "A", ["x"]⟩ [("x", "x")] "x" [] [] ∅ rfl

/-! ## Registration-order iteration (line 39) -/

theorem insOrd_perm {α : Type} (lt : α → α → Bool) (x : α) (l : List α) :
    (insOrd lt x l).Perm (x :: l) := by
  induction l with
  | nil => exact List.Perm.refl _
  | cons y ys ih =>
    by_cases h : lt y x = true
    · rw [insOrd, if_pos h]
      exact (ih.cons y).trans (List.Perm.swap x y ys)
    · rw [insOrd, if_neg h]

theorem isort_perm {α : Type} (lt : α → α → Bool) (l : List α) :
    (isort lt l).Perm l := by
  induction l with
  | nil => exact List.Perm.refl _
  | cons x xs ih => exact (insOrd_perm lt x (isort lt xs)).trans (ih.cons x)

theorem pairwise_insOrd_key {α : Type} (key : α → Nat) (x : α) (l : List α)
    (hp : l.Pairwise (fun a b => key a < key b))
    (hne : ∀ y ∈ l, key y ≠ key x) :
    (insOrd (fun a b => decide (key a < key b)) x l).Pairwise
      (fun a b => key a < key b) := by
  induction l with
  | nil => simp [insOrd]
  | cons y ys ih =>
    obtain ⟨hy, hys⟩ := List.pairwise_cons.mp hp
    by_cases h : key y < key x
    · rw [insOrd, if_pos (by simpa using h)]
      refine List.pairwise_cons.mpr
        ⟨?_, ih hys (fun z hz => hne z (List.mem_cons_of_mem _ hz))⟩
      intro z hz
      rcases (mem_insOrd _ x ys z).mp hz with rfl | hz'
      · exact h
      · exact hy z hz'
    · rw [insOrd, if_neg (by simpa using h)]
      have hxy : key x < key y := by
        have := hne y (List.mem_cons_self _ _)
        omega
      refine List.pairwise_cons.mpr ⟨?_, hp⟩
      intro z hz
      rcases List.mem_cons.mp hz with rfl | hz'
      · exact hxy
      · exact Nat.lt_trans hxy (hy z hz')

theorem isort_pairwise_key {α : Type} (key : α → Nat) (l : List α)
    (hinj : ∀ a ∈ l, ∀ b ∈ l, key a = key b → a = b) (hnd : l.Nodup) :
    (isort (fun a b => decide (key a < key b)) l).Pairwise
      (fun a b => key a < key b) := by
  induction l with
  | nil => simp [isort]
  | cons x xs ih =>
    obtain ⟨hx, hxs⟩ := List.nodup_cons.mp hnd
    rw [isort]
    refine pairwise_insOrd_key key x _
      (ih (fun a ha b hb => hinj a (List.mem_cons_of_mem _ ha) b
        (List.mem_cons_of_mem _ hb)) hxs) ?_
    intro y hy hk
    have hyxs : y ∈ xs := ((isort_perm _ xs).mem_iff).mp hy
    have : y = x := hinj y (List.mem_cons_of_mem _ hyxs) x (List.mem_cons_self _ _) hk
    subst this
    exact hx hyxs

theorem eq_of_perm_of_pairwise_key {α : Type} (key : α → Nat) (l1 l2 : List α)
    (hperm : l1.Perm l2)
    (h1 : l1.Pairwise (fun a b => key a < key b))
    (h2 : l2.Pairwise (fun a b => key a < key b)) : l1 = l2 := by
  have hA : IsAntisymm α (fun a b => key a < key b ∨ a = b) := by
    constructor
    rintro a b (h | rfl) (h' | h')
    · omega
    · exact h'.symm
    · rfl
    · rfl
  exact @List.eq_of_perm_of_sorted α (fun a b => key a < key b ∨ a = b) hA l1 l2 hperm
    (List.Pairwise.imp Or.inl h1) (List.Pairwise.imp Or.inl h2)

theorem indexOf_inj_of_mem {miners : List Miner} (h : miners.Nodup)
    {a b : Miner} (ha : a ∈ miners) (hb : b ∈ miners)
    (he : miners.indexOf a = miners.indexOf b) : a = b := by
  have h1 := List.indexOf_lt_length.mpr ha
  have h2 := List.indexOf_lt_length.mpr hb
  have hg1 : miners[miners.indexOf a]? = some a := by
    rw [List.getElem?_eq_getElem h1, List.getElem_indexOf h1]
  have hg2 : miners[miners.indexOf b]? = some b := by
    rw [List.getElem?_eq_getElem h2, List.getElem_indexOf h2]
  rw [he, hg2] at hg1
  exact (Option.some.inj hg1).symm

theorem nodup_pairwise_indexOf (miners : List Miner) (h : miners.Nodup) :
    miners.Pairwise (fun a b => miners.indexOf a < miners.indexOf b) := by
  rw [List.pairwise_iff_getElem]
  intro i j hi hj hij
  rw [List.indexOf_getElem h i hi, List.indexOf_getElem h j hj]
  exact hij

theorem sortByRegistration_eq_filter (miners keys : List Miner)
    (hnd : miners.Nodup) (hknd : keys.Nodup) (hsub : ∀ k ∈ keys, k ∈ miners) :
    sortByRegistration miners keys = miners.filter (fun m => decide (m ∈ keys)) := by
  apply eq_of_perm_of_pairwise_key (fun m => miners.indexOf m)
  · refine (isort_perm _ keys).trans ?_
    rw [List.perm_ext_iff_of_nodup hknd (hnd.filter _)]
    intro a
    simp only [List.mem_filter, decide_eq_true_eq]
    exact ⟨fun ha => ⟨hsub a ha, ha⟩, fun h => h.2⟩
  · exact isort_pairwise_key _ keys
      (fun a ha b hb he => indexOf_inj_of_mem hnd (hsub a ha) (hsub b hb) he) hknd
  · exact List.Pairwise.sublist (List.filter_sublist miners)
      (nodup_pairwise_indexOf miners hnd)

theorem dictGet_none_iff {α β : Type} [DecidableEq α] (d : Dict α β) (k : α) :
    dictGet d k = none ↔ k ∉ d.map Prod.fst := by
  induction d with
  | nil => simp [dictGet]
  | cons e rest ih =>
    obtain ⟨ek, ev⟩ := e
    by_cases hk : ek = k
    · subst hk
      simp [dictGet]
    · rw [dictGet, if_neg hk, ih]
      simp only [List.map_cons, List.mem_cons, not_or]
      constructor
      · intro h
        exact ⟨fun hc => hk hc.symm, h⟩
      · intro h
        exact h.2

theorem setInner_keys_nodup {d : Dict Miner (Dict String String)} {m : Miner}
    {pub src : String} (h : (d.map Prod.fst).Nodup) :
    ((setInner d m pub src).map Prod.fst).Nodup := by
  unfold setInner
  cases hd : dictGet d m with
  | some inner => exact keys_dictSet_nodup d m _ h
  | none =>
    rw [List.map_append]
    simp only [List.map_cons, List.map_nil]
    rw [List.nodup_append]
    refine ⟨h, by simp, ?_⟩
    intro a ha
    simp only [List.mem_singleton]
    intro hc
    subst hc
    exact (dictGet_none_iff d a).mp hd ha

theorem setInner_keys_sub {d : Dict Miner (Dict String String)} {m : Miner}
    {pub src : String} :
    ∀ a ∈ (setInner d m pub src).map Prod.fst, a ∈ d.map Prod.fst ∨ a = m := by
  intro a ha
  unfold setInner at ha
  cases hd : dictGet d m with
  | some inner =>
    rw [hd] at ha
    rcases keys_dictSet_sub d m _ a ha with h1 | h1
    · exact Or.inr h1
    · exact Or.inl h1
  | none =>
    rw [hd] at ha
    rw [List.map_append] at ha
    rcases List.mem_append.mp ha with h1 | h1
    · exact Or.inl h1
    · simp at h1
      exact Or.inr h1

theorem applyRegs_keys_nodup (ws : List (Miner × String × String)) :
    ∀ d, ((d : Dict Miner (Dict String String)).map Prod.fst).Nodup →
      ((applyRegs d ws).map Prod.fst).Nodup := by
  induction ws with
  | nil => intro d h; exact h
  | cons w ws ih =>
    obtain ⟨wm, wpub, wsrc⟩ := w
    intro d h
    exact ih _ (setInner_keys_nodup h)

theorem applyRegs_keys_sub (ws : List (Miner × String × String)) :
    ∀ d a, a ∈ ((applyRegs d ws).map Prod.fst) →
      a ∈ d.map Prod.fst ∨ ∃ w ∈ ws, w.1 = a := by
  induction ws with
  | nil => intro d a ha; exact Or.inl ha
  | cons w ws ih =>
    obtain ⟨wm, wpub, wsrc⟩ := w
    intro d a ha
    rcases ih _ a ha with h1 | h1
    · rcases setInner_keys_sub a h1 with h2 | h2
      · exact Or.inl h2
      · exact Or.inr ⟨(wm, wpub, wsrc), List.mem_cons_self _ _, h2.symm⟩
    · obtain ⟨w', hw', he⟩ := h1
      exact Or.inr ⟨w', List.mem_cons_of_mem _ hw', he⟩

theorem foldl_inv {α β : Type} (P : β → Prop) (l : List α) :
    ∀ (step : β → α → β), (∀ b a, a ∈ l → P b → P (step b a)) →
      ∀ b, P b → P (l.foldl step b) := by
  induction l with
  | nil => intro step _ b hb; exact hb
  | cons x xs ih =>
    intro step hstep b hb
    exact ih step (fun b a ha hb => hstep b a (List.mem_cons_of_mem _ ha) hb) _
      (hstep b x (List.mem_cons_self _ _) hb)

theorem dictAppend_values_inv {α β : Type} [DecidableEq α] {d : Dict α (List β)}
    {k : α} {x : β} (P : β → Prop)
    (hd : ∀ e ∈ d, ∀ v ∈ e.2, P v) (hx : P x) :
    ∀ e ∈ dictAppend d k x, ∀ v ∈ e.2, P v := by
  intro e he v hv
  unfold dictAppend at he
  cases hg : dictGet d k with
  | some xs =>
    rw [hg] at he
    rcases mem_dictSet he with h1 | h1
    · exact hd e h1 v hv
    · subst h1
      rcases List.mem_append.mp hv with h2 | h2
      · exact hd (k, xs) (dictGet_mem hg) v h2
      · simp at h2
        subst h2
        exact hx
  | none =>
    rw [hg] at he
    rcases List.mem_append.mp he with h1 | h1
    · exact hd e h1 v hv
    · simp at h1
      subst h1
      simp at hv
      subst hv
      exact hx

theorem nameMinerMap_values_mem (miners : List Miner) :
    ∀ e ∈ nameMinerMap miners, ∀ v ∈ e.2, v ∈ miners := by
  unfold nameMinerMap
  refine foldl_inv
    (fun d : Dict String (List Miner) => ∀ e ∈ d, ∀ v ∈ e.2, v ∈ miners)
    miners _ ?_ [] (by simp)
  intro d m hm hd
  refine foldl_inv
    (fun d : Dict String (List Miner) => ∀ e ∈ d, ∀ v ∈ e.2, v ∈ miners)
    m.contnames _ ?_ d hd
  intro d' c _ hd'
  exact dictAppend_values_inv _ hd' hm

theorem mem_miners_of_reg {miners : List Miner} {w : Miner × String × String}
    (hw : w ∈ registrations miners) : w.1 ∈ miners := by
  obtain ⟨entry, he, hc⟩ := mem_registrations.mp hw
  rcases hc with ⟨_, m, hm, rfl⟩ | ⟨_, m, hm, rfl⟩ <;>
    exact nameMinerMap_values_mem miners entry he m hm

theorem nameSourceMap_keys_nodup (miners : List Miner) :
    (((nameSourceMap miners).map Prod.fst)).Nodup := by
  rw [nameSourceMap_eq_applyRegs]
  exact applyRegs_keys_nodup (registrations miners) [] (by simp)

theorem nameSourceMap_keys_mem (miners : List Miner) :
    ∀ a ∈ (nameSourceMap miners).map Prod.fst, a ∈ miners := by
  intro a ha
  rw [nameSourceMap_eq_applyRegs] at ha
  rcases applyRegs_keys_sub (registrations miners) [] a ha with h1 | h1
  · simp at h1
  · obtain ⟨w, hw, rfl⟩ := h1
    exact mem_miners_of_reg hw

theorem selection_empty_of_no_key {ns_map : Dict Miner (Dict String String)}
    {filter_set : Finset String} {m : Miner} (h : dictGet ns_map m = none) :
    selection ns_map filter_set m = ∅ := by
  unfold selection
  rw [h]
  simp

theorem trace_foldr_filter (writers : List Writer')
    (get_data : Miner → String → Outcome Data)
    (write : Writer' → String → Data → Outcome Unit)
    (ns_map : Dict Miner (Dict String String)) (filter_set : Finset String)
    (L : List Miner) :
    L.foldr (fun m acc =>
        (if selection ns_map filter_set m = ∅ then []
         else minerEvents get_data write writers ns_map filter_set m) ++ acc) [] =
      (L.filter (fun m => decide (selection ns_map filter_set m ≠ ∅))).foldr
        (fun m acc => minerEvents get_data write writers ns_map filter_set m ++ acc)
        [] := by
  induction L with
  | nil => rfl
  | cons x xs ih =>
    by_cases hx : selection ns_map filter_set x = ∅
    · simp [List.filter_cons, hx, ih]
    · simp [List.filter_cons, hx, ih]

theorem mem_foldl_union (L : List Miner) (sel : Miner → Finset String) :
    ∀ (p : Finset String) (a : String),
      (a ∈ L.foldl (fun acc m => acc ∪ sel m) p) ↔ a ∈ p ∨ ∃ m ∈ L, a ∈ sel m := by
  induction L with
  | nil => intro p a; simp
  | cons x xs ih =>
    intro p a
    rw [List.foldl_cons, ih]
    constructor
    · rintro (h | h)
      · rcases Finset.mem_union.mp h with h1 | h1
        · exact Or.inl h1
        · exact Or.inr ⟨x, List.mem_cons_self _ _, h1⟩
      · obtain ⟨m, hm, ha⟩ := h
        exact Or.inr ⟨m, List.mem_cons_of_mem _ hm, ha⟩
    · rintro (h | ⟨m, hm, ha⟩)
      · exact Or.inl (Finset.mem_union_left _ h)
      · rcases List.mem_cons.mp hm with rfl | hm'
        · exact Or.inl (Finset.mem_union_right _ ha)
        · exact Or.inr ⟨m, hm', ha⟩

theorem mem_foldr_union (L : List Miner) (sel : Miner → Finset String) (a : String) :
    a ∈ L.foldr (fun m acc => sel m ∪ acc) ∅ ↔ ∃ m ∈ L, a ∈ sel m := by
  induction L with
  | nil => simp
  | cons x xs ih =>
    rw [List.foldr_cons]
    rw [Finset.mem_union, ih]
    constructor
    · rintro (h | ⟨m, hm, ha⟩)
      · exact ⟨x, List.mem_cons_self _ _, h⟩
      · exact ⟨m, List.mem_cons_of_mem _ hm, ha⟩
    · rintro ⟨m, hm, ha⟩
      rcases List.mem_cons.mp hm with rfl | hm'
      · exact Or.inl ha
      · exact Or.inr ⟨m, hm', ha⟩

theorem order_processed_eq (miners : List Miner) (filter_set : Finset String)
    (hnd : miners.Nodup) :
    (sortByRegistration miners ((nameSourceMap miners).map Prod.fst)).foldl
      (fun acc m => acc ∪ selection (nameSourceMap miners) filter_set m) ∅ =
      processedSpec miners filter_set := by
  rw [sortByRegistration_eq_filter miners _ hnd (nameSourceMap_keys_nodup miners)
    (nameSourceMap_keys_mem miners)]
  ext a
  rw [mem_foldl_union]
  unfold processedSpec
  rw [mem_foldr_union]
  simp only [Finset.not_mem_empty, false_or, List.mem_filter, decide_eq_true_eq]
  constructor
  · rintro ⟨m, ⟨hm1, _⟩, ha⟩
    exact ⟨m, hm1, ha⟩
  · rintro ⟨m, hm, ha⟩
    refine ⟨m, ⟨hm, ?_⟩, ha⟩
    by_contra hk
    rw [selection_empty_of_no_key ((dictGet_none_iff _ _).mpr hk)] at ha
    simp at ha

theorem order_trace_eq (miners : List Miner) (writers : List Writer')
    (get_data : Miner → String → Outcome Data)
    (write : Writer' → String → Data → Outcome Unit) (filter_set : Finset String)
    (hnd : miners.Nodup) :
    (sortByRegistration miners ((nameSourceMap miners).map Prod.fst)).foldr
      (fun m acc =>
        (if selection (nameSourceMap miners) filter_set m = ∅ then []
         else minerEvents get_data write writers (nameSourceMap miners) filter_set m)
          ++ acc) [] =
      canonicalTrace miners writers get_data write filter_set := by
  rw [sortByRegistration_eq_filter miners _ hnd (nameSourceMap_keys_nodup miners)
    (nameSourceMap_keys_mem miners)]
  rw [trace_foldr_filter]
  unfold canonicalTrace
  rw [List.filter_filter]
  congr 1
  apply List.filter_congr
  intro m _
  by_cases hsel : selection (nameSourceMap miners) filter_set m = ∅
  · simp [hsel]
  · have hk : m ∈ (nameSourceMap miners).map Prod.fst := by
      by_contra hk
      exact hsel (selection_empty_of_no_key ((dictGet_none_iff _ _).mpr hk))
    simp [hsel, hk]

/-! ## Claim C6 -/

/-- **C6** (confirmed): with distinct miners and no interrupting collaborator,
`run` produces exactly the canonical trace: miners visited strictly in
registration order (re-derived from the registered list), each miner's
candidate set taken from the namespace and intersected with a non-empty
filter set, miners with an empty candidate set skipped entirely, and — by the
second conjunct — each visited miner's selected public names processed in
sorted lexicographic order (`sortedNames` enumerates exactly the candidate
set, strictly sorted by the code-point order). -/
theorem run_trace_canonical (miners : List Miner) (writers : List Writer')
    (get_data : Miner → String → Outcome Data)
    (write : Writer' → String → Data → Outcome Unit)
    (filter_string : String) (filter_set : Finset String)
    (hnd : miners.Nodup)
    (hparse : parseFilter filter_string = Except.ok filter_set)
    (hki : ∀ m src, get_data m src ≠ Outcome.keyboardInterrupt)
    (hwki : ∀ w n d, write w n d ≠ Outcome.keyboardInterrupt) :
    run miners writers get_data write filter_string =
      Except.ok (canonicalTrace miners writers get_data write filter_set ++
        missingReport filter_set (processedSpec miners filter_set),
        RunEnd.completed) ∧
    (∀ s : Finset String, (∀ a, a ∈ sortedNames s ↔ a ∈ s) ∧
      (sortedNames s).Pairwise (fun a b => strLt a b = true)) := by
  refine ⟨?_, fun s => sortedNames_spec s⟩
  simp only [run, hparse]
  rw [minerLoop_no_ki get_data write writers _ _ hki hwki]
  dsimp only
  rw [List.nil_append]
  rw [order_trace_eq miners writers get_data write filter_set hnd,
    order_processed_eq miners filter_set hnd]

/-- Witness for C6: the canonical-trace equation at a concrete two-miner,
one-writer scenario with a non-empty filter. -/
theorem run_trace_canonical_witness :
    run [⟨0, "A", ["foo_A", "foo"]⟩, ⟨1, "B", ["foo"]⟩] [⟨0, "CsvW"⟩]
        (fun _ s => Outcome.ok ("d-" ++ s)) (fun _ _ _ => Outcome.ok ())
        "foo_B,qux" =
      Except.ok (canonicalTrace [⟨0, "A", ["foo_A", "foo"]⟩, ⟨1, "B", ["foo"]⟩]
          [⟨0, "CsvW"⟩] (fun _ s => Outcome.ok ("d-" ++ s))
          (fun _ _ _ => Outcome.ok ()) {"foo_B", "qux"} ++
        missingReport {"foo_B", "qux"}
          (processedSpec [⟨0, "A", ["foo_A", "foo"]⟩, ⟨1, "B", ["foo"]⟩]
            {"foo_B", "qux"}),
        RunEnd.completed) :=
  (run_trace_canonical [⟨0, "A", ["foo_A", "foo"]⟩, ⟨1, "B", ["foo"]⟩] [⟨0, "CsvW"⟩]
    (fun _ s => Outcome.ok ("d-" ++ s)) (fun _ _ _ => Outcome.ok ())
    "foo_B,qux" {"foo_B", "qux"} (by decide) (by decide)
    (fun _ _ => by simp) (fun _ _ _ => by simp)).1

/-! ## Claim C7 -/

theorem writerEvents_no_report (write : Writer' → String → Data → Outcome Unit)
    (writers : List Writer') (n : String) (d : Data) :
    ∀ e ∈ writerEvents write writers n d,
      e ≠ Event.missingHeader ∧ ∀ x, e ≠ Event.missingName x := by
  intro e he
  unfold writerEvents at he
  rw [mem_foldr_append] at he
  obtain ⟨w, _, he⟩ := he
  cases hw : write w n d with
  | ok u =>
    rw [hw] at he
    simp at he
    subst he
    exact ⟨by simp, fun x => by simp⟩
  | exn a b =>
    rw [hw] at he
    simp at he
    rcases he with rfl | rfl
    · exact ⟨by simp, fun x => by simp⟩
    · exact ⟨by simp, fun x => by simp⟩
  | keyboardInterrupt =>
    rw [hw] at he
    simp at he
    subst he
    exact ⟨by simp, fun x => by simp⟩

theorem nameEvents_no_report (get_data : Miner → String → Outcome Data)
    (write : Writer' → String → Data → Outcome Unit) (writers : List Writer')
    (miner : Miner) (bucket : Dict String String) (n : String) :
    ∀ e ∈ nameEvents get_data write writers miner bucket n,
      e ≠ Event.missingHeader ∧ ∀ x, e ≠ Event.missingName x := by
  intro e he
  unfold nameEvents at he
  rcases List.mem_cons.mp he with rfl | he'
  · exact ⟨by simp, fun x => by simp⟩
  · cases hf : get_data miner ((dictGet bucket n).getD "") with
    | ok d =>
      rw [hf] at he'
      exact writerEvents_no_report write writers n d e he'
    | exn a b =>
      rw [hf] at he'
      simp at he'
      subst he'
      exact ⟨by simp, fun x => by simp⟩
    | keyboardInterrupt =>
      rw [hf] at he'
      simp at he'

theorem minerEvents_no_report (get_data : Miner → String → Outcome Data)
    (write : Writer' → String → Data → Outcome Unit) (writers : List Writer')
    (ns_map : Dict Miner (Dict String String)) (filter_set : Finset String)
    (m : Miner) :
    ∀ e ∈ minerEvents get_data write writers ns_map filter_set m,
      e ≠ Event.missingHeader ∧ ∀ x, e ≠ Event.missingName x := by
  intro e he
  unfold minerEvents at he
  rcases List.mem_cons.mp he with rfl | he'
  · exact ⟨by simp, fun x => by simp⟩
  · rw [mem_foldr_append] at he'
    obtain ⟨n, _, he''⟩ := he'
    exact nameEvents_no_report get_data write writers m _ n e he''

theorem canonicalTrace_no_report (miners : List Miner) (writers : List Writer')
    (get_data : Miner → String → Outcome Data)
    (write : Writer' → String → Data → Outcome Unit) (filter_set : Finset String) :
    ∀ e ∈ canonicalTrace miners writers get_data write filter_set,
      e ≠ Event.missingHeader ∧ ∀ x, e ≠ Event.missingName x := by
  intro e he
  unfold canonicalTrace at he
  rw [mem_foldr_append] at he
  obtain ⟨m, _, he'⟩ := he
  exact minerEvents_no_report get_data write writers _ filter_set m e he'

theorem reportedMissing_append (t1 t2 : List Event) :
    reportedMissing (t1 ++ t2) = reportedMissing t1 ++ reportedMissing t2 :=
  List.filterMap_append t1 t2 _

theorem reportedMissing_canonicalTrace (miners : List Miner) (writers : List Writer')
    (get_data : Miner → String → Outcome Data)
    (write : Writer' → String → Data → Outcome Unit) (filter_set : Finset String) :
    reportedMissing (canonicalTrace miners writers get_data write filter_set) = [] := by
  unfold reportedMissing
  rw [List.filterMap_eq_nil_iff]
  intro e he
  have h := canonicalTrace_no_report miners writers get_data write filter_set e he
  cases e with
  | missingName n => exact absurd rfl (h.2 n)
  | missingHeader => exact absurd rfl h.1
  | header s => rfl
  | processing s => rfl
  | fetchFail a b => rfl
  | writeCall a b c => rfl
  | writeFail a b c => rfl

theorem reportedMissing_cons_header (l : List Event) :
    reportedMissing (Event.missingHeader :: l) = reportedMissing l := by
  unfold reportedMissing
  rw [List.filterMap_cons]

theorem reportedMissing_map (l : List String) :
    reportedMissing (l.map Event.missingName) = l := by
  induction l with
  | nil => rfl
  | cons x xs ih =>
    show reportedMissing (Event.missingName x :: xs.map Event.missingName) = x :: xs
    unfold reportedMissing at ih ⊢
    rw [List.filterMap_cons]
    dsimp only
    rw [ih]

theorem reportedMissing_missingReport (filter_set processed : Finset String) :
    reportedMissing (missingReport filter_set processed) =
      (if filter_set ≠ ∅ ∧ filter_set \ processed ≠ ∅ then
        sortedNames (filter_set \ processed) else []) := by
  unfold missingReport
  by_cases h1 : filter_set ≠ ∅
  · rw [if_pos h1]
    by_cases h2 : filter_set \ processed ≠ ∅
    · rw [if_pos h2, if_pos ⟨h1, h2⟩, reportedMissing_cons_header, reportedMissing_map]
    · rw [if_neg h2, if_neg (fun hc => h2 hc.2)]
      rfl
  · rw [if_neg h1, if_neg (fun hc => h1 hc.1)]
    rfl

theorem missingHeader_mem_missingReport (filter_set processed : Finset String) :
    Event.missingHeader ∈ missingReport filter_set processed ↔
      filter_set ≠ ∅ ∧ filter_set \ processed ≠ ∅ := by
  unfold missingReport
  by_cases h1 : filter_set ≠ ∅
  · rw [if_pos h1]
    by_cases h2 : filter_set \ processed ≠ ∅
    · rw [if_pos h2]
      constructor
      · intro _
        exact ⟨h1, h2⟩
      · intro _
        exact List.mem_cons_self _ _
    · rw [if_neg h2]
      constructor
      · intro hc
        simp at hc
      · rintro ⟨_, hc⟩
        exact absurd hc h2
  · rw [if_neg h1]
    constructor
    · intro hc
      simp at hc
    · rintro ⟨hc, _⟩
      exact absurd hc h1

/-- **C7** (confirmed): every selected public name is recorded as processed
before its fetch is attempted, so the final processed set is the union of the
candidate sets and is independent of every fetch outcome (fourth conjunct);
the completed run reports exactly the sorted difference requested-minus
processed, the report appearing if and only if the filter set and that
difference are both non-empty (first two conjuncts); consequently a selected
name — in particular one whose fetch failed — never appears in the report
(third conjunct). -/
theorem requested_unavailable_report (miners : List Miner) (writers : List Writer')
    (get_data : Miner → String → Outcome Data)
    (write : Writer' → String → Data → Outcome Unit)
    (filter_string : String) (filter_set : Finset String) (tr : List Event)
    (hnd : miners.Nodup)
    (hparse : parseFilter filter_string = Except.ok filter_set)
    (hki : ∀ m src, get_data m src ≠ Outcome.keyboardInterrupt)
    (hwki : ∀ w n d, write w n d ≠ Outcome.keyboardInterrupt)
    (hrun : run miners writers get_data write filter_string =
      Except.ok (tr, RunEnd.completed)) :
    reportedMissing tr =
      (if filter_set ≠ ∅ ∧ filter_set \ processedSpec miners filter_set ≠ ∅ then
        sortedNames (filter_set \ processedSpec miners filter_set) else []) ∧
    (Event.missingHeader ∈ tr ↔
      filter_set ≠ ∅ ∧ filter_set \ processedSpec miners filter_set ≠ ∅) ∧
    (∀ m ∈ miners, ∀ n ∈ selection (nameSourceMap miners) filter_set m,
      n ∉ reportedMissing tr) ∧
    (∃ evs, minerLoop get_data write writers (nameSourceMap miners) filter_set
      (sortByRegistration miners ((nameSourceMap miners).map Prod.fst)) [] ∅ =
        Except.ok (evs, processedSpec miners filter_set)) := by
  have hchar : run miners writers get_data write filter_string =
      Except.ok (canonicalTrace miners writers get_data write filter_set ++
        missingReport filter_set (processedSpec miners filter_set),
        RunEnd.completed) := by
    simp only [run, hparse]
    rw [minerLoop_no_ki get_data write writers _ _ hki hwki]
    dsimp only
    rw [List.nil_append]
    rw [order_trace_eq miners writers get_data write filter_set hnd,
      order_processed_eq miners filter_set hnd]
  rw [hchar] at hrun
  have htr : tr = canonicalTrace miners writers get_data write filter_set ++
      missingReport filter_set (processedSpec miners filter_set) :=
    (congrArg Prod.fst (Except.ok.inj hrun)).symm
  subst htr
  have hrep : reportedMissing
      (canonicalTrace miners writers get_data write filter_set ++
        missingReport filter_set (processedSpec miners filter_set)) =
      (if filter_set ≠ ∅ ∧ filter_set \ processedSpec miners filter_set ≠ ∅ then
        sortedNames (filter_set \ processedSpec miners filter_set) else []) := by
    rw [reportedMissing_append, reportedMissing_canonicalTrace, List.nil_append,
      reportedMissing_missingReport]
  refine ⟨hrep, ?_, ?_, ?_⟩
  · rw [List.mem_append]
    constructor
    · rintro (hc | hc)
      · exact absurd rfl
          (canonicalTrace_no_report miners writers get_data write filter_set _ hc).1
      · exact (missingHeader_mem_missingReport _ _).mp hc
    · intro hc
      exact Or.inr ((missingHeader_mem_missingReport _ _).mpr hc)
  · intro m hm n hn hcon
    rw [hrep] at hcon
    by_cases hcond : filter_set ≠ ∅ ∧ filter_set \ processedSpec miners filter_set ≠ ∅
    · rw [if_pos hcond] at hcon
      have hmem := ((sortedNames_spec _).1 n).mp hcon
      have hns := (Finset.mem_sdiff.mp hmem).2
      exact hns ((mem_foldr_union miners _ n).mpr ⟨m, hm, hn⟩)
    · rw [if_neg hcond] at hcon
      simp at hcon
  · have h := minerLoop_no_ki get_data write writers (nameSourceMap miners)
      filter_set hki hwki
      (sortByRegistration miners ((nameSourceMap miners).map Prod.fst)) [] ∅
    rw [order_processed_eq miners filter_set hnd] at h
    exact ⟨_, h⟩

/-- Witness for C7: the report equation at a concrete run whose filter
requests one available and one unavailable name. -/
theorem requested_unavailable_report_witness :
    reportedMissing
        (canonicalTrace [⟨0, "A", ["foo_A", "foo"]⟩, ⟨1, "B", ["foo"]⟩] [⟨0, "CsvW"⟩]
          (fun _ s => Outcome.ok ("d-" ++ s)) (fun _ _ _ => Outcome.ok ())
          {"foo_B", "qux"} ++
        missingReport {"foo_B", "qux"}
          (processedSpec [⟨0, "A", ["foo_A", "foo"]⟩, ⟨1, "B", ["foo"]⟩]
            {"foo_B", "qux"})) =
      (if ({"foo_B", "qux"} : Finset String) ≠ ∅ ∧
          ({"foo_B", "qux"} : Finset String) \
            processedSpec [⟨0, "A", ["foo_A", "foo"]⟩, ⟨1, "B", ["foo"]⟩]
              {"foo_B", "qux"} ≠ ∅ then
        sortedNames (({"foo_B", "qux"} : Finset String) \
          processedSpec [⟨0, "A", ["foo_A", "foo"]⟩, ⟨1, "B", ["foo"]⟩]
            {"foo_B", "qux"})
      else []) :=
  (requested_unavailable_report [⟨0, "A", ["foo_A", "foo"]⟩, ⟨1, "B", ["foo"]⟩]
    [⟨0, "CsvW"⟩] (fun _ s => Outcome.ok ("d-" ++ s)) (fun _ _ _ => Outcome.ok ())
    "foo_B,qux" {"foo_B", "qux"} _ (by decide) (by decide)
    (fun _ _ => by simp) (fun _ _ _ => by simp) (by decide)).1
